import Mathlib

/-!
Verification of the phoseum media-management core against its specification.

The Rust sources are shallowly embedded:
* `src/storage.rs`  → `Phoseum.Storage` (bounded cache with ref-counted eviction);
  filesystem effects are modelled by returning the list of deleted file names,
  and `open`'s directory scan by `openScan` over a listing.
* `src/playlist.rs` → `Phoseum.PlaylistBuilder`, the selector pipeline and the
  reservoir sampler; the thread-local RNG is modelled by an explicit list of
  draws consumed left to right, each draw taken modulo the requested range.
* `src/slideshow.rs` → `Phoseum.Slideshow`; the on-disk media directory is an
  association list from file name to byte size, and the player is a record of
  its paused flag and the history of `update_playlist` calls.
-/

namespace Phoseum

/-- Cache entry of `src/storage.rs` (`Entry`): byte size and reference count. -/
structure Entry where
  size : Nat
  users : Nat
deriving DecidableEq, Repr

/-- Cache of `src/storage.rs` (`Storage`).  The directory path is irrelevant to
the claims and omitted; `in_use` models the `using` field and `residents` the
`HashMap<PathBuf, Entry>` as an association list with (invariantly) unique keys. -/
structure Storage where
  capacity : Nat
  in_use : Nat
  residents : List (String × Entry)
deriving DecidableEq, Repr

/-- First pair stored under key `k` in an association list (`HashMap::get`). -/
def findPair {α β : Type} [DecidableEq α] : List (α × β) → α → Option (α × β)
  | [], _ => none
  | p :: rest, k => if p.1 = k then some p else findPair rest k

/-- Remove the first pair stored under key `k` (`HashMap::remove`). -/
def erasePair {α β : Type} [DecidableEq α] : List (α × β) → α → List (α × β)
  | [], _ => []
  | p :: rest, k => if p.1 = k then rest else p :: erasePair rest k

/-- Lookup of a resident entry (`self.residents.get(&filename)`). -/
def lookupE (s : Storage) (k : String) : Option Entry :=
  (findPair s.residents k).map (fun p => p.2)

/-- Reference count of `k`, zero when `k` is not resident. -/
def usersOf (s : Storage) (k : String) : Nat :=
  ((lookupE s k).map (fun e => e.users)).getD 0

/-- Pointwise update of the entry stored under `k` (`get_mut` + mutation). -/
def updEntry (rs : List (String × Entry)) (k : String) (f : Entry → Entry) :
    List (String × Entry) :=
  rs.map (fun p => if p.1 = k then (p.1, f p.2) else p)

/-- Total byte size of a resident listing (`residents.values().map(|e| e.size).sum()`). -/
def sumSizes (rs : List (String × Entry)) : Nat :=
  (rs.map (fun p => p.2.size)).sum

/-- Ascending-size order used by `try_evict`'s `sort_unstable_by_key`. -/
def sizeAsc (a b : String × Entry) : Prop := a.2.size ≤ b.2.size

instance : DecidableRel sizeAsc := fun a b => Nat.decLe a.2.size b.2.size

instance : IsTotal (String × Entry) sizeAsc := ⟨fun a b => Nat.le_total a.2.size b.2.size⟩

instance : IsTrans (String × Entry) sizeAsc := ⟨fun _ _ _ h1 h2 => Nat.le_trans h1 h2⟩

/-- Selection loop of `Storage::try_evict`: walk the size-sorted listing, skip
entries with users or in the reserved set, accumulate until `freed >= need`.
Returns the total freed bytes and the selected entries in selection order. -/
def evictWalk : List (String × Entry) → Nat → List String → Nat →
    List (String × Entry) → Nat × List (String × Entry)
  | [], _, _, freed, acc => (freed, acc.reverse)
  | (n, e) :: rest, need, reserved, freed, acc =>
    if 0 < e.users ∨ n ∈ reserved then
      evictWalk rest need reserved freed acc
    else if need ≤ freed + e.size then
      (freed + e.size, ((n, e) :: acc).reverse)
    else
      evictWalk rest need reserved (freed + e.size) ((n, e) :: acc)

/-- Removal loop of `Storage::try_evict`: delete each selected file, drop it
from `residents` and subtract its size from `in_use`.  `fs::remove_file` is
modelled as succeeding; the `unwrap` on a missing key is unreachable from
`evictWalk`'s output and modelled as a skip. -/
def evictApply : Storage → List String → Storage
  | s, [] => s
  | s, k :: ks =>
    match findPair s.residents k with
    | some pr =>
      evictApply { s with residents := erasePair s.residents k, in_use := s.in_use - pr.2.size } ks
    | none => evictApply s ks

/-- Model of `Storage::try_evict`: `none` is `Ok(false)` (insufficient freeable
space, no side effect), `some` returns the reduced cache and the deleted names. -/
def tryEvict (s : Storage) (need : Nat) (reserved : List String) :
    Option (Storage × List String) :=
  let sorted := s.residents.insertionSort sizeAsc
  let w := evictWalk sorted need reserved 0 []
  if w.1 < need then none
  else
    let names := w.2.map (fun p => p.1)
    some (evictApply s names, names)

/-- Model of `Storage::acquire` on the success path of its I/O: the returned
boolean is the `Ok` payload, paired with the new cache and the deleted files.
Path validation is not modelled (all names used are bare filenames). -/
def Storage.acquire (s : Storage) (name : String) (size : Nat)
    (reserved : List String) : Bool × Storage × List String :=
  match lookupE s name with
  | some _ =>
    (true, { s with residents := updEntry s.residents name (fun e => { e with users := e.users + 1 }) }, [])
  | none =>
    if s.capacity < s.in_use + size then
      match tryEvict s size reserved with
      | none => (false, s, [])
      | some (s1, del) =>
        (true, { s1 with residents := s1.residents ++ [(name, ⟨size, 1⟩)], in_use := s1.in_use + size }, del)
    else
      (true, { s with residents := s.residents ++ [(name, ⟨size, 1⟩)], in_use := s.in_use + size }, [])

/-- Error type of `src/storage.rs`; only the `InvalidPath` variant is reachable
in the modelled operations. -/
inductive StorageError where
  | invalidPath
deriving DecidableEq, Repr

/-- Model of `Storage::release`: fails when the name is not resident, otherwise
decrements the user count if positive. -/
def Storage.release (s : Storage) (name : String) : Except StorageError Storage :=
  match lookupE s name with
  | none => .error .invalidPath
  | some _ =>
    .ok { s with residents := updEntry s.residents name (fun e => if 0 < e.users then { e with users := e.users - 1 } else e) }

/-- Model of `Storage::open`: scan a directory listing (name, byte size), each
regular file becoming a resident with zero users; `in_use` is the sum of sizes. -/
def openScan (files : List (String × Nat)) (capacity : Nat) : Storage :=
  { capacity := capacity
    in_use := (files.map (fun p => p.2)).sum
    residents := files.map (fun p => (p.1, { size := p.2, users := 0 })) }

/-- One user-visible cache operation. -/
inductive SOp where
  | acq (name : String) (size : Nat) (reserved : List String)
  | rel (name : String)
deriving DecidableEq, Repr

/-- Run a sequence of operations, requiring every acquire to return `Ok(true)`
and every release to return `Ok` (`none` when some call does not). -/
def runOps (s : Storage) : List SOp → Option Storage
  | [] => some s
  | SOp.acq n sz r :: rest =>
    let t := s.acquire n sz r
    if t.1 then runOps t.2.1 rest else none
  | SOp.rel n :: rest =>
    match s.release n with
    | .ok s' => runOps s' rest
    | .error _ => none

/-- Well-formedness: resident keys are unique (they model a `HashMap`). -/
def Storage.WF (s : Storage) : Prop := (s.residents.map (fun p => p.1)).Nodup

/-- Accounting invariant: `in_use` equals the total size of the residents. -/
def SInv (s : Storage) : Prop := s.in_use = sumSizes s.residents

section AssocLemmas

variable {α β : Type} [DecidableEq α]

theorem findPair_mem {rs : List (α × β)} {k : α} {pr : α × β}
    (h : findPair rs k = some pr) : pr ∈ rs ∧ pr.1 = k := by
  induction rs with
  | nil => simp [findPair] at h
  | cons p rest ih =>
    by_cases hk : p.1 = k
    · simp only [findPair, if_pos hk, Option.some.injEq] at h
      exact ⟨by simp [← h], by rw [← h]; exact hk⟩
    · simp only [findPair, if_neg hk] at h
      rcases ih h with ⟨h1, h2⟩
      exact ⟨List.mem_cons_of_mem _ h1, h2⟩

theorem findPair_cons (p : α × β) (rest : List (α × β)) (k : α) :
    findPair (p :: rest) k = if p.1 = k then some p else findPair rest k := rfl

theorem erasePair_cons (p : α × β) (rest : List (α × β)) (k : α) :
    erasePair (p :: rest) k = if p.1 = k then rest else p :: erasePair rest k := rfl

theorem findPair_eq_none_iff {rs : List (α × β)} {k : α} :
    findPair rs k = none ↔ k ∉ rs.map (fun p => p.1) := by
  induction rs with
  | nil => simp [findPair]
  | cons p rest ih =>
    by_cases hk : p.1 = k
    · simp [findPair_cons, hk]
    · simp [findPair_cons, hk, ih]
      exact fun _ h => hk h.symm

theorem findPair_isSome_of_key {rs : List (α × β)} {k : α}
    (h : k ∈ rs.map (fun p => p.1)) : (findPair rs k).isSome := by
  cases hf : findPair rs k with
  | none => exact absurd (findPair_eq_none_iff.mp hf) (by simp [h])
  | some _ => rfl

theorem findPair_append (rs1 rs2 : List (α × β)) (k : α) :
    findPair (rs1 ++ rs2) k = ((findPair rs1 k).orElse (fun _ => findPair rs2 k)) := by
  induction rs1 with
  | nil => simp [findPair]
  | cons p rest ih =>
    by_cases hk : p.1 = k <;> simp [findPair, hk, ih]

theorem findPair_erase_ne (rs : List (α × β)) {k k2 : α} (hne : k ≠ k2) :
    findPair (erasePair rs k2) k = findPair rs k := by
  induction rs with
  | nil => rfl
  | cons p rest ih =>
    rw [erasePair_cons]
    by_cases h2 : p.1 = k2
    · have hk : p.1 ≠ k := by rw [h2]; exact fun hh => hne hh.symm
      rw [if_pos h2, findPair_cons, if_neg hk]
    · rw [if_neg h2, findPair_cons, findPair_cons, ih]

theorem erasePair_sublist (rs : List (α × β)) (k : α) :
    List.Sublist (erasePair rs k) rs := by
  induction rs with
  | nil => simp [erasePair]
  | cons p rest ih =>
    rw [erasePair_cons]
    by_cases hk : p.1 = k
    · rw [if_pos hk]; exact List.sublist_cons_self p rest
    · rw [if_neg hk]; exact ih.cons₂ p

theorem mem_key_unique {rs : List (α × β)}
    (hnd : (rs.map (fun p => p.1)).Nodup) {p q : α × β}
    (hp : p ∈ rs) (hq : q ∈ rs) (hk : p.1 = q.1) : p = q := by
  induction rs with
  | nil => simp at hp
  | cons a rest ih =>
    simp only [List.map_cons, List.nodup_cons] at hnd
    rcases List.mem_cons.mp hp with hp1 | hp1 <;>
      rcases List.mem_cons.mp hq with hq1 | hq1
    · rw [hp1, hq1]
    · exact absurd (List.mem_map.mpr ⟨q, hq1, by rw [← hk, hp1]⟩) hnd.1
    · exact absurd (List.mem_map.mpr ⟨p, hp1, by rw [hk, hq1]⟩) hnd.1
    · exact ih hnd.2 hp1 hq1

theorem findPair_of_mem {rs : List (α × β)} {pr : α × β}
    (hnd : (rs.map (fun p => p.1)).Nodup) (hm : pr ∈ rs) :
    findPair rs pr.1 = some pr := by
  cases hf : findPair rs pr.1 with
  | none => exact absurd (findPair_eq_none_iff.mp hf) (by simp [List.mem_map.mpr ⟨pr, hm, rfl⟩])
  | some q =>
    rcases findPair_mem hf with ⟨hq, hqk⟩
    rw [mem_key_unique hnd hq hm hqk]

end AssocLemmas

theorem sumSizes_cons (p : String × Entry) (rs : List (String × Entry)) :
    sumSizes (p :: rs) = p.2.size + sumSizes rs := by
  simp [sumSizes]

theorem sumSizes_append (rs1 rs2 : List (String × Entry)) :
    sumSizes (rs1 ++ rs2) = sumSizes rs1 + sumSizes rs2 := by
  simp [sumSizes]

theorem sumSizes_perm {rs1 rs2 : List (String × Entry)} (h : rs1.Perm rs2) :
    sumSizes rs1 = sumSizes rs2 :=
  (h.map (fun p : String × Entry => p.2.size)).sum_eq

theorem sumSizes_sublist {rs1 rs2 : List (String × Entry)} (h : List.Sublist rs1 rs2) :
    sumSizes rs1 ≤ sumSizes rs2 :=
  (h.map (fun p : String × Entry => p.2.size)).sum_le_sum (fun _ _ => Nat.zero_le _)

theorem sumSizes_mem_le {rs : List (String × Entry)} {pr : String × Entry} (h : pr ∈ rs) :
    pr.2.size ≤ sumSizes rs := by
  induction rs with
  | nil => simp at h
  | cons q rest ih =>
    rcases List.mem_cons.mp h with h1 | h1
    · rw [h1, sumSizes_cons]; omega
    · have := ih h1; rw [sumSizes_cons]; omega

theorem sumSizes_erase {rs : List (String × Entry)} {k : String} {pr : String × Entry}
    (h : findPair rs k = some pr) :
    sumSizes (erasePair rs k) = sumSizes rs - pr.2.size := by
  induction rs with
  | nil => simp [findPair] at h
  | cons p rest ih =>
    by_cases hk : p.1 = k
    · simp only [findPair, if_pos hk, Option.some.injEq] at h
      rw [← h]
      simp [erasePair, hk, sumSizes_cons]
    · simp only [findPair, if_neg hk] at h
      have hle := sumSizes_mem_le (findPair_mem h).1
      have := ih h
      simp only [erasePair, if_neg hk, sumSizes_cons, this]
      omega

theorem updEntry_cons (p : String × Entry) (rest : List (String × Entry)) (k : String)
    (f : Entry → Entry) :
    updEntry (p :: rest) k f
      = (if p.1 = k then (p.1, f p.2) else p) :: updEntry rest k f := rfl

theorem keys_updEntry (rs : List (String × Entry)) (k : String) (f : Entry → Entry) :
    (updEntry rs k f).map (fun p => p.1) = rs.map (fun p => p.1) := by
  induction rs with
  | nil => rfl
  | cons p rest ih =>
    rw [updEntry_cons, List.map_cons, List.map_cons, ih]
    by_cases hk : p.1 = k
    · rw [if_pos hk]
    · rw [if_neg hk]

theorem findPair_updEntry_self (rs : List (String × Entry)) (k : String) (f : Entry → Entry) :
    findPair (updEntry rs k f) k = (findPair rs k).map (fun p => (p.1, f p.2)) := by
  induction rs with
  | nil => rfl
  | cons p rest ih =>
    rw [updEntry_cons, findPair_cons, findPair_cons]
    by_cases hk : p.1 = k
    · rw [if_pos hk]
      simp [hk]
    · rw [if_neg hk, if_neg hk, ih, if_neg hk]

theorem findPair_updEntry_ne (rs : List (String × Entry)) {k k2 : String}
    (f : Entry → Entry) (hne : k ≠ k2) :
    findPair (updEntry rs k2 f) k = findPair rs k := by
  induction rs with
  | nil => rfl
  | cons p rest ih =>
    rw [updEntry_cons, findPair_cons, findPair_cons]
    by_cases h2 : p.1 = k2
    · have hk : p.1 ≠ k := by rw [h2]; exact fun hh => hne hh.symm
      rw [if_pos h2, if_neg hk, ih]
      have : (p.1, f p.2).1 ≠ k := hk
      rw [if_neg this]
    · rw [if_neg h2, ih]

theorem sumSizes_updEntry (rs : List (String × Entry)) (k : String) (f : Entry → Entry)
    (hf : ∀ e, (f e).size = e.size) :
    sumSizes (updEntry rs k f) = sumSizes rs := by
  induction rs with
  | nil => rfl
  | cons p rest ih =>
    rw [updEntry_cons, sumSizes_cons, sumSizes_cons, ih]
    by_cases hk : p.1 = k
    · rw [if_pos hk]
      simp [hf]
    · rw [if_neg hk]

theorem updEntry_id (rs : List (String × Entry)) (k : String) {f : Entry → Entry}
    (hf : ∀ p ∈ rs, p.1 = k → f p.2 = p.2) : updEntry rs k f = rs := by
  induction rs with
  | nil => rfl
  | cons p rest ih =>
    have ihr := ih (fun q hq hqk => hf q (List.mem_cons_of_mem _ hq) hqk)
    rw [updEntry_cons, ihr]
    by_cases hk : p.1 = k
    · rw [if_pos hk, hf p (List.mem_cons_self p rest) hk, Prod.mk.eta]
    · rw [if_neg hk]

/-- Evictability test of `try_evict`'s walk: no users and not reserved. -/
def evictableB (reserved : List String) (p : String × Entry) : Bool :=
  decide (p.2.users = 0 ∧ p.1 ∉ reserved)

/-- Total size the eviction walk could free. -/
def evictableSum (s : Storage) (reserved : List String) : Nat :=
  sumSizes (s.residents.filter (evictableB reserved))

theorem evictWalk_spec (l : List (String × Entry)) (need : Nat) (reserved : List String) :
    ∀ freed acc, ∃ sel,
      evictWalk l need reserved freed acc = (freed + sumSizes sel, acc.reverse ++ sel)
      ∧ List.Sublist sel l ∧ ∀ p ∈ sel, p.2.users = 0 ∧ p.1 ∉ reserved := by
  induction l with
  | nil =>
    intro freed acc
    exact ⟨[], by simp [evictWalk, sumSizes], List.nil_sublist _, by simp⟩
  | cons q rest ih =>
    intro freed acc
    obtain ⟨n, e⟩ := q
    by_cases hskip : 0 < e.users ∨ n ∈ reserved
    · obtain ⟨sel, h1, h2, h3⟩ := ih freed acc
      refine ⟨sel, ?_, h2.cons _, h3⟩
      simp only [evictWalk, if_pos hskip]
      exact h1
    · have hu : e.users = 0 := by
        rcases Nat.eq_zero_or_pos e.users with h | h
        · exact h
        · exact absurd (Or.inl h) hskip
      have hnr : n ∉ reserved := fun h => hskip (Or.inr h)
      by_cases hbr : need ≤ freed + e.size
      · refine ⟨[(n, e)], ?_, (List.nil_sublist rest).cons₂ _, ?_⟩
        · simp only [evictWalk, if_neg hskip, if_pos hbr]
          simp [sumSizes_cons, sumSizes]
        · intro p hp
          rw [List.mem_singleton.mp hp]
          exact ⟨hu, hnr⟩
      · obtain ⟨sel, h1, h2, h3⟩ := ih (freed + e.size) ((n, e) :: acc)
        refine ⟨(n, e) :: sel, ?_, h2.cons₂ _, ?_⟩
        · simp only [evictWalk, if_neg hskip, if_neg hbr]
          rw [h1, sumSizes_cons]
          simp [List.reverse_cons, List.append_assoc, Nat.add_assoc]
        · intro p hp
          rcases List.mem_cons.mp hp with h | h
          · rw [h]; exact ⟨hu, hnr⟩
          · exact h3 p h

theorem evictWalk_all (l : List (String × Entry)) (need : Nat) (reserved : List String) :
    ∀ freed acc, freed + sumSizes (l.filter (evictableB reserved)) < need →
      evictWalk l need reserved freed acc
        = (freed + sumSizes (l.filter (evictableB reserved)),
           acc.reverse ++ l.filter (evictableB reserved)) := by
  induction l with
  | nil =>
    intro freed acc _
    simp [evictWalk, sumSizes]
  | cons q rest ih =>
    intro freed acc h
    obtain ⟨n, e⟩ := q
    by_cases hskip : 0 < e.users ∨ n ∈ reserved
    · have hf : evictableB reserved (n, e) = false := by
        simp only [evictableB, decide_eq_false_iff_not]
        intro hc
        rcases hskip with h1 | h1
        · omega
        · exact hc.2 h1
      rw [List.filter_cons_of_neg (by rw [hf]; exact Bool.false_ne_true)] at h ⊢
      simp only [evictWalk, if_pos hskip]
      exact ih freed acc h
    · have hu : e.users = 0 := by
        rcases Nat.eq_zero_or_pos e.users with h1 | h1
        · exact h1
        · exact absurd (Or.inl h1) hskip
      have hnr : n ∉ reserved := fun h1 => hskip (Or.inr h1)
      have hf : evictableB reserved (n, e) = true := by
        simp [evictableB, hu, hnr]
      rw [List.filter_cons_of_pos (by rw [hf])] at h ⊢
      rw [sumSizes_cons] at h
      have hsz : ((n, e) : String × Entry).2.size = e.size := rfl
      rw [hsz] at h
      have hbr : ¬ need ≤ freed + e.size := by omega
      simp only [evictWalk, if_neg hskip, if_neg hbr]
      rw [ih (freed + e.size) ((n, e) :: acc) (by omega)]
      rw [sumSizes_cons]
      simp [List.reverse_cons, List.append_assoc, Nat.add_assoc]

theorem evictApply_capacity (ks : List String) :
    ∀ s : Storage, (evictApply s ks).capacity = s.capacity := by
  induction ks with
  | nil => intro s; rfl
  | cons k rest ih =>
    intro s
    simp only [evictApply]
    split
    · rw [ih]
    · exact ih s

theorem evictApply_WF (ks : List String) :
    ∀ s : Storage, s.WF → (evictApply s ks).WF := by
  induction ks with
  | nil => intro s h; exact h
  | cons k rest ih =>
    intro s h
    simp only [evictApply]
    split
    · exact ih _ (h.sublist ((erasePair_sublist _ _).map _))
    · exact ih s h

theorem evictApply_SInv (ks : List String) :
    ∀ s : Storage, SInv s → SInv (evictApply s ks) := by
  induction ks with
  | nil => intro s h; exact h
  | cons k rest ih =>
    intro s h
    simp only [evictApply]
    split
    · next pr heq =>
      apply ih
      show _ = sumSizes (erasePair s.residents k)
      rw [sumSizes_erase heq, ← h]
    · exact ih s h

theorem evictApply_lookup (ks : List String) :
    ∀ (s : Storage) (k : String), k ∉ ks →
      lookupE (evictApply s ks) k = lookupE s k := by
  induction ks with
  | nil => intro s k _; rfl
  | cons k2 rest ih =>
    intro s k hk
    have hne : k ≠ k2 := fun h => hk (h ▸ List.mem_cons_self _ _)
    have hrest : k ∉ rest := fun h => hk (List.mem_cons_of_mem _ h)
    simp only [evictApply]
    split
    · rw [ih _ _ hrest]
      show (findPair (erasePair s.residents k2) k).map _ = _
      rw [findPair_erase_ne _ hne]
      rfl
    · exact ih s k hrest

theorem evictApply_in_use (sel : List (String × Entry)) :
    ∀ s : Storage, s.WF →
      (∀ p ∈ sel, findPair s.residents p.1 = some p) →
      (sel.map (fun p => p.1)).Nodup →
      (evictApply s (sel.map (fun p => p.1))).in_use = s.in_use - sumSizes sel := by
  induction sel with
  | nil => intro s _ _ _; simp [evictApply, sumSizes]
  | cons p rest ih =>
    intro s hwf hfind hnd
    have hp : findPair s.residents p.1 = some p := hfind p (List.mem_cons_self _ _)
    simp only [List.map_cons, List.nodup_cons] at hnd
    simp only [List.map_cons, evictApply, hp]
    have hwf2 : Storage.WF { s with residents := erasePair s.residents p.1, in_use := s.in_use - p.2.size } :=
      hwf.sublist ((erasePair_sublist _ _).map _)
    have hfind2 : ∀ q ∈ rest, findPair (erasePair s.residents p.1) q.1 = some q := by
      intro q hq
      have hqne : q.1 ≠ p.1 := by
        intro hc
        exact hnd.1 (hc ▸ List.mem_map.mpr ⟨q, hq, rfl⟩)
      rw [findPair_erase_ne _ hqne]
      exact hfind q (List.mem_cons_of_mem _ hq)
    rw [ih _ hwf2 hfind2 hnd.2]
    show s.in_use - p.2.size - sumSizes rest = _
    rw [sumSizes_cons, Nat.sub_sub]

theorem WF_mk {c u : Nat} {rs : List (String × Entry)}
    (h : (rs.map (fun p => p.1)).Nodup) : Storage.WF ⟨c, u, rs⟩ := h

theorem SInv_mk {c u : Nat} {rs : List (String × Entry)}
    (h : u = sumSizes rs) : SInv ⟨c, u, rs⟩ := h

theorem lookupE_eq_none_iff {s : Storage} {k : String} :
    lookupE s k = none ↔ findPair s.residents k = none := by
  unfold lookupE
  cases findPair s.residents k <;> simp

theorem keys_append_nodup {rs : List (String × Entry)} {n : String} {e : Entry}
    (hnd : (rs.map (fun p => p.1)).Nodup) (hn : findPair rs n = none) :
    ((rs ++ [(n, e)]).map (fun p => p.1)).Nodup := by
  rw [List.map_append]
  rw [List.nodup_append]
  refine ⟨hnd, by simp, ?_⟩
  intro a ha hb
  have : a = n := by simpa using hb
  exact (findPair_eq_none_iff.mp hn) (this ▸ ha)

theorem tryEvict_some {s : Storage} {need : Nat} {reserved : List String}
    {s1 : Storage} {del : List String}
    (hwf : s.WF) (h : tryEvict s need reserved = some (s1, del)) :
    s1.WF ∧ s1.capacity = s.capacity
    ∧ (∀ k, k ∉ del → lookupE s1 k = lookupE s k)
    ∧ (∀ k ∈ del, ∃ e, lookupE s k = some e ∧ e.users = 0 ∧ k ∉ reserved)
    ∧ (SInv s → SInv s1
        ∧ ∃ freed, need ≤ freed ∧ freed ≤ sumSizes s.residents
            ∧ s1.in_use = s.in_use - freed) := by
  obtain ⟨sel, hw, hsub, hprops⟩ :=
    evictWalk_spec (s.residents.insertionSort sizeAsc) need reserved 0 []
  have hperm : (s.residents.insertionSort sizeAsc).Perm s.residents :=
    List.perm_insertionSort sizeAsc s.residents
  have hkeysnd : ((s.residents.insertionSort sizeAsc).map (fun p => p.1)).Nodup :=
    ((hperm.map (fun p : String × Entry => p.1)).symm).nodup
      (show (s.residents.map (fun p => p.1)).Nodup from hwf)
  have hselnd : (sel.map (fun p => p.1)).Nodup := hkeysnd.sublist (hsub.map _)
  have hmem : ∀ p ∈ sel, p ∈ s.residents := fun p hp => hperm.subset (hsub.subset hp)
  have hfind : ∀ p ∈ sel, findPair s.residents p.1 = some p :=
    fun p hp => findPair_of_mem hwf (hmem p hp)
  simp only [tryEvict] at h
  rw [hw] at h
  simp only [List.reverse_nil, List.nil_append, Nat.zero_add] at h
  by_cases hlt : sumSizes sel < need
  · rw [if_pos hlt] at h
    exact absurd h (fun hh => Option.noConfusion hh)
  · rw [if_neg hlt] at h
    have h2 := Option.some.inj h
    rw [Prod.mk.injEq] at h2
    obtain ⟨h2a, h2b⟩ := h2
    subst h2a
    subst h2b
    refine ⟨evictApply_WF _ _ hwf, evictApply_capacity _ _, ?_, ?_, ?_⟩
    · intro k hk
      exact evictApply_lookup _ _ _ hk
    · intro k hk
      obtain ⟨p, hp, hpk⟩ := List.mem_map.mp hk
      refine ⟨p.2, ?_, (hprops p hp).1, hpk ▸ (hprops p hp).2⟩
      show (findPair s.residents k).map _ = some p.2
      rw [← hpk, hfind p hp]
      rfl
    · intro hinv
      refine ⟨evictApply_SInv _ _ hinv, sumSizes sel, by omega, ?_, ?_⟩
      · exact Nat.le_trans (sumSizes_sublist hsub) (Nat.le_of_eq (sumSizes_perm hperm))
      · exact evictApply_in_use sel s hwf hfind hselnd

theorem tryEvict_fail {s : Storage} {need : Nat} {reserved : List String}
    (hsum : evictableSum s reserved < need) :
    tryEvict s need reserved = none := by
  have hperm : (s.residents.insertionSort sizeAsc).Perm s.residents :=
    List.perm_insertionSort sizeAsc s.residents
  have hfe : sumSizes ((s.residents.insertionSort sizeAsc).filter (evictableB reserved))
      = evictableSum s reserved := sumSizes_perm (hperm.filter _)
  have hw := evictWalk_all (s.residents.insertionSort sizeAsc) need reserved 0 []
    (by rw [Nat.zero_add, hfe]; exact hsum)
  simp only [tryEvict]
  rw [hw]
  rw [if_pos (by rw [Nat.zero_add, hfe]; exact hsum)]

theorem acquire_state {s : Storage} {n : String} {size : Nat} {reserved : List String}
    (hwf : s.WF) :
    ((s.acquire n size reserved).2.1).WF
    ∧ (s.acquire n size reserved).2.1.capacity = s.capacity
    ∧ (SInv s → SInv (s.acquire n size reserved).2.1
        ∧ (s.in_use ≤ s.capacity → (s.acquire n size reserved).2.1.in_use ≤ s.capacity)) := by
  cases hl : lookupE s n with
  | some e =>
    simp only [Storage.acquire, hl]
    refine ⟨?_, ?_, ?_⟩
    · exact WF_mk (by rw [keys_updEntry]; exact hwf)
    · trivial
    · intro hinv
      refine ⟨?_, fun hc => hc⟩
      refine SInv_mk ?_
      rw [sumSizes_updEntry s.residents n (fun e2 => { e2 with users := e2.users + 1 })
        (fun _ => rfl)]
      exact hinv
  | none =>
    simp only [Storage.acquire, hl]
    by_cases hover : s.capacity < s.in_use + size
    · rw [if_pos hover]
      cases ht : tryEvict s size reserved with
      | none =>
        exact ⟨hwf, rfl, fun hinv => ⟨hinv, fun hc => hc⟩⟩
      | some pr =>
        obtain ⟨s1, del⟩ := pr
        obtain ⟨h1wf, h1cap, h1look, h1del, h1acc⟩ := tryEvict_some hwf ht
        have hn1 : findPair s1.residents n = none := by
          have hndel : n ∉ del := by
            intro hc
            obtain ⟨e, he, -⟩ := h1del n hc
            rw [hl] at he
            exact Option.noConfusion he
          rw [← lookupE_eq_none_iff]
          rw [h1look n hndel]
          exact hl
        refine ⟨?_, by simpa using h1cap, ?_⟩
        · exact WF_mk (keys_append_nodup h1wf hn1)
        · intro hinv
          obtain ⟨h1si, freed, hfr1, hfr2, hfr3⟩ := h1acc hinv
          constructor
          · refine SInv_mk ?_
            rw [sumSizes_append, ← h1si]
            simp [sumSizes]
          · intro hc
            show s1.in_use + size ≤ s.capacity
            rw [hfr3]
            have : sumSizes s.residents = s.in_use := hinv.symm
            omega
    · rw [if_neg hover]
      refine ⟨?_, rfl, ?_⟩
      · exact WF_mk (keys_append_nodup hwf (lookupE_eq_none_iff.mp hl))
      · intro hinv
        constructor
        · refine SInv_mk ?_
          rw [sumSizes_append, ← hinv]
          simp [sumSizes]
        · intro _
          show s.in_use + size ≤ s.capacity
          omega

theorem release_ok_state {s : Storage} {n : String} {s2 : Storage}
    (hwf : s.WF) (h : s.release n = .ok s2) :
    s2.WF ∧ s2.capacity = s.capacity ∧ s2.in_use = s.in_use ∧ (SInv s → SInv s2) := by
  cases hl : lookupE s n with
  | none =>
    rw [Storage.release] at h
    rw [hl] at h
    exact Except.noConfusion h
  | some e =>
    rw [Storage.release] at h
    rw [hl] at h
    have h2 := Except.ok.inj h
    subst h2
    refine ⟨?_, rfl, rfl, ?_⟩
    · exact WF_mk (by rw [keys_updEntry]; exact hwf)
    · intro hinv
      refine SInv_mk ?_
      rw [sumSizes_updEntry s.residents n
        (fun e2 => if 0 < e2.users then { e2 with users := e2.users - 1 } else e2)
        (fun e2 => by by_cases h2 : 0 < e2.users <;> simp [h2])]
      exact hinv

theorem runOps_state (ops : List SOp) :
    ∀ s s2 : Storage, s.WF → runOps s ops = some s2 →
      s2.WF ∧ s2.capacity = s.capacity
      ∧ (SInv s → SInv s2 ∧ (s.in_use ≤ s.capacity → s2.in_use ≤ s2.capacity)) := by
  induction ops with
  | nil =>
    intro s s2 hwf h
    have h2 := Option.some.inj h
    subst h2
    exact ⟨hwf, rfl, fun hinv => ⟨hinv, fun hc => hc⟩⟩
  | cons op rest ih =>
    intro s s2 hwf h
    cases op with
    | acq n sz r =>
      simp only [runOps] at h
      by_cases hb : (s.acquire n sz r).1 = true
      · rw [if_pos hb] at h
        obtain ⟨h1wf, h1cap, h1si⟩ := @acquire_state s n sz r hwf
        obtain ⟨h2wf, h2cap, h2si⟩ := ih _ _ h1wf h
        refine ⟨h2wf, h2cap.trans h1cap, ?_⟩
        intro hinv
        obtain ⟨h1inv, h1bound⟩ := h1si hinv
        obtain ⟨h2inv, h2bound⟩ := h2si h1inv
        refine ⟨h2inv, ?_⟩
        intro hc
        have hb1 : (s.acquire n sz r).2.1.in_use ≤ (s.acquire n sz r).2.1.capacity := by
          rw [h1cap]
          exact h1bound hc
        exact h2bound hb1
      · rw [if_neg hb] at h
        exact Option.noConfusion h
    | rel n =>
      simp only [runOps] at h
      cases hr : s.release n with
      | error err =>
        rw [hr] at h
        exact Option.noConfusion h
      | ok s3 =>
        rw [hr] at h
        obtain ⟨h1wf, h1cap, h1use, h1si⟩ := release_ok_state hwf hr
        obtain ⟨h2wf, h2cap, h2si⟩ := ih _ _ h1wf h
        refine ⟨h2wf, h2cap.trans h1cap, ?_⟩
        intro hinv
        obtain ⟨h2inv, h2bound⟩ := h2si (h1si hinv)
        refine ⟨h2inv, ?_⟩
        intro hc
        exact h2bound (by rw [h1cap, h1use]; exact hc)

/-- Repeated `acquire` of one name with per-call size and reserved set
(`none` when some call returns `Ok(false)`). -/
def acquireN (n : String) : List (Nat × List String) → Storage → Option Storage
  | [], s => some s
  | a :: rest, s =>
    let t := s.acquire n a.1 a.2
    if t.1 then acquireN n rest t.2.1 else none

/-- Repeated `release` of one name (`none` when some call returns an error). -/
def releaseN (n : String) : Nat → Storage → Option Storage
  | 0, s => some s
  | k + 1, s =>
    match s.release n with
    | .ok s2 => releaseN n k s2
    | .error _ => none

/-- User count of `n` in an optional resulting cache. -/
def usersAfter (t : Option Storage) (n : String) : Option Nat :=
  t.map (fun s => usersOf s n)

theorem usersOf_eq (s : Storage) (n : String) :
    usersOf s n = ((findPair s.residents n).map (fun p => p.2.users)).getD 0 := by
  unfold usersOf lookupE
  cases findPair s.residents n <;> rfl

theorem residents_mk (c u : Nat) (rs : List (String × Entry)) :
    (Storage.mk c u rs).residents = rs := rfl

theorem keysSizes_updEntry (rs : List (String × Entry)) (k : String) (f : Entry → Entry)
    (hf : ∀ e, (f e).size = e.size) :
    (updEntry rs k f).map (fun p => (p.1, p.2.size)) = rs.map (fun p => (p.1, p.2.size)) := by
  induction rs with
  | nil => rfl
  | cons p rest ih =>
    rw [updEntry_cons, List.map_cons, List.map_cons, ih]
    by_cases hk : p.1 = k
    · rw [if_pos hk]
      simp [hf]
    · rw [if_neg hk]

theorem acquire_insert_not_resident {s : Storage} {n : String} {sz : Nat} {r : List String}
    (hl : lookupE s n = none) {s1 : Storage} {del : List String}
    (hwf : s.WF) (ht : tryEvict s sz r = some (s1, del)) :
    findPair s1.residents n = none := by
  obtain ⟨-, -, hlook, hdel, -⟩ := tryEvict_some hwf ht
  have hndel : n ∉ del := by
    intro hc
    obtain ⟨e, he, -⟩ := hdel n hc
    rw [hl] at he
    exact Option.noConfusion he
  rw [← lookupE_eq_none_iff, hlook n hndel]
  exact hl

theorem acquire_users {s : Storage} {n : String} {sz : Nat} {r : List String}
    (hwf : s.WF) (hb : (s.acquire n sz r).1 = true) :
    usersOf (s.acquire n sz r).2.1 n = usersOf s n + 1
    ∧ (findPair (s.acquire n sz r).2.1.residents n).isSome := by
  cases hl : lookupE s n with
  | some e =>
    cases hfp : findPair s.residents n with
    | none =>
      rw [lookupE, hfp] at hl
      exact Option.noConfusion hl
    | some pr =>
      have hacq : s.acquire n sz r = (true, Storage.mk s.capacity s.in_use
          (updEntry s.residents n (fun e2 => { e2 with users := e2.users + 1 })), []) := by
        simp only [Storage.acquire, hl]
      simp only [hacq, residents_mk]
      constructor
      · rw [usersOf_eq, usersOf_eq, residents_mk, findPair_updEntry_self, hfp]
        rfl
      · rw [findPair_updEntry_self, hfp]
        rfl
  | none =>
    have hu0 : usersOf s n = 0 := by
      rw [usersOf_eq, lookupE_eq_none_iff.mp hl]
      rfl
    by_cases hover : s.capacity < s.in_use + sz
    · cases ht : tryEvict s sz r with
      | none =>
        have hacq : s.acquire n sz r = (false, s, []) := by
          simp only [Storage.acquire, hl]
          rw [if_pos hover, ht]
        rw [hacq] at hb
        exact absurd hb (by simp)
      | some pr =>
        obtain ⟨s1, del⟩ := pr
        have hacq : s.acquire n sz r = (true, Storage.mk s1.capacity (s1.in_use + sz)
            (s1.residents ++ [(n, ⟨sz, 1⟩)]), del) := by
          simp only [Storage.acquire, hl]
          rw [if_pos hover, ht]
        have hn1 : findPair s1.residents n = none := acquire_insert_not_resident hl hwf ht
        simp only [hacq]
        constructor
        · rw [usersOf_eq, hu0, residents_mk, findPair_append, hn1]
          simp [findPair]
        · rw [residents_mk, findPair_append, hn1]
          simp [findPair]
    · have hn0 : findPair s.residents n = none := lookupE_eq_none_iff.mp hl
      have hacq : s.acquire n sz r = (true, Storage.mk s.capacity (s.in_use + sz)
          (s.residents ++ [(n, ⟨sz, 1⟩)]), []) := by
        simp only [Storage.acquire, hl]
        rw [if_neg hover]
      simp only [hacq]
      constructor
      · rw [usersOf_eq, hu0, residents_mk, findPair_append, hn0]
        simp [findPair]
      · rw [residents_mk, findPair_append, hn0]
        simp [findPair]

theorem release_users {s : Storage} {n : String}
    (hsome : (findPair s.residents n).isSome) :
    ∃ s2, s.release n = .ok s2 ∧ usersOf s2 n = usersOf s n - 1
      ∧ (findPair s2.residents n).isSome := by
  cases hfp : findPair s.residents n with
  | none => rw [hfp] at hsome; exact absurd hsome (by simp)
  | some pr =>
    have hl : lookupE s n = some pr.2 := by rw [lookupE, hfp]; rfl
    have hrel : s.release n = .ok (Storage.mk s.capacity s.in_use
        (updEntry s.residents n
          (fun e2 => if 0 < e2.users then { e2 with users := e2.users - 1 } else e2))) := by
      rw [Storage.release, hl]
    refine ⟨_, hrel, ?_, ?_⟩
    · rw [usersOf_eq, usersOf_eq, residents_mk, findPair_updEntry_self, hfp]
      by_cases h2 : 0 < pr.2.users <;> simp [h2] <;> omega
    · rw [residents_mk, findPair_updEntry_self, hfp]
      rfl

theorem releaseN_users (n : String) (k : Nat) : ∀ s : Storage,
    (findPair s.residents n).isSome →
    usersAfter (releaseN n k s) n = some (usersOf s n - k) := by
  induction k with
  | zero =>
    intro s _
    simp [releaseN, usersAfter]
  | succ k ih =>
    intro s hsome
    obtain ⟨s2, hok, hu, hsome2⟩ := release_users hsome
    simp only [releaseN, hok]
    rw [ih s2 hsome2, hu]
    congr 1
    omega

theorem acquireN_users (n : String) (args : List (Nat × List String)) :
    ∀ s s1 : Storage, s.WF → acquireN n args s = some s1 →
      usersOf s1 n = usersOf s n + args.length ∧ s1.WF
      ∧ (0 < args.length → (findPair s1.residents n).isSome) := by
  induction args with
  | nil =>
    intro s s1 hwf h
    obtain rfl := Option.some.inj h
    exact ⟨rfl, hwf, fun hc => absurd hc (by simp)⟩
  | cons a rest ih =>
    intro s s1 hwf h
    simp only [acquireN] at h
    by_cases hb : (s.acquire n a.1 a.2).1 = true
    · rw [if_pos hb] at h
      obtain ⟨hu, hsome⟩ := acquire_users hwf hb
      have hwf2 : (s.acquire n a.1 a.2).2.1.WF := (acquire_state hwf).1
      obtain ⟨ihu, ihwf, ihsome⟩ := ih _ _ hwf2 h
      refine ⟨?_, ihwf, fun _ => ?_⟩
      · rw [ihu, hu, List.length_cons]
        omega
      · cases rest with
        | nil =>
          simp only [acquireN] at h
          obtain rfl := Option.some.inj h
          exact hsome
        | cons b br => exact ihsome (by simp)
    · rw [if_neg hb] at h
      exact Option.noConfusion h

/-- C1 (amended): for every `Storage` returned by `open(dir, capacity)`, after any
sequence of `acquire`/`release` calls in which every acquire returned `Ok(true)`
and every release returned `Ok`, the cache satisfies `in_use = Σ` of the resident
sizes; and provided the scanned directory contents fit within `capacity`, also
`in_use ≤ capacity`.  The original unconditional `in_use ≤ capacity` fails when
the startup scan already exceeds the capacity (no normalization happens at open
and eviction only frees as much as the requested size). -/
theorem C1_storage_accounting (files : List (String × Nat)) (cap : Nat)
    (ops : List SOp) (s2 : Storage)
    (hnd : (files.map (fun p => p.1)).Nodup)
    (hrun : runOps (openScan files cap) ops = some s2) :
    SInv s2 ∧ ((files.map (fun p => p.2)).sum ≤ cap → s2.in_use ≤ s2.capacity) := by
  have hwf0 : (openScan files cap).WF := by
    refine WF_mk ?_
    rw [List.map_map]
    exact hnd
  have hinv0 : SInv (openScan files cap) := by
    refine SInv_mk ?_
    rw [sumSizes, List.map_map]
    rfl
  obtain ⟨h2wf, h2cap, h2si⟩ := runOps_state ops _ s2 hwf0 hrun
  obtain ⟨h2inv, h2bound⟩ := h2si hinv0
  exact ⟨h2inv, fun hcap => h2bound hcap⟩

/-- C1 witness instance: scanning one 2-byte file under capacity 10 and acquiring
a 3-byte entry keeps the invariant and the capacity bound. -/
theorem C1_storage_accounting_witness :
    ((([("a", 2)] : List (String × Nat)).map (fun p => p.1)).Nodup
      ∧ runOps (openScan [("a", 2)] 10) [SOp.acq "b" 3 []]
          = some ⟨10, 5, [("a", ⟨2, 0⟩), ("b", ⟨3, 1⟩)]⟩)
    ∧ (SInv ⟨10, 5, [("a", ⟨2, 0⟩), ("b", ⟨3, 1⟩)]⟩
      ∧ ((([("a", 2)] : List (String × Nat)).map (fun p => p.2)).sum ≤ 10 →
          (⟨10, 5, [("a", ⟨2, 0⟩), ("b", ⟨3, 1⟩)]⟩ : Storage).in_use
            ≤ (⟨10, 5, [("a", ⟨2, 0⟩), ("b", ⟨3, 1⟩)]⟩ : Storage).capacity)) :=
  ⟨⟨by decide, by decide⟩,
    C1_storage_accounting [("a", 2)] 10 [SOp.acq "b" 3 []] _ (by decide) (by decide)⟩

/-- C1 counterexample: opening a directory holding 3 + 22 = 25 bytes under
capacity 20 and then acquiring 1 byte succeeds with `Ok(true)`, evicts only the
3-byte file, and leaves `in_use = 23 > capacity = 20`, refuting the claim's
unconditional `in_use ≤ capacity`. -/
theorem C1_capacity_cex :
    (runOps (openScan [("a", 3), ("b", 22)] 20) [SOp.acq "c" 1 []]).map
      (fun s => decide (s.in_use ≤ s.capacity)) = some false := by decide

/-- C7: across any `acquire` call, eviction never removes a resident entry with
`users > 0` nor one whose key is in the reserved set: the entry stays resident
with its size, and its file is not among the deleted ones. -/
theorem C7_eviction_spares_protected {s : Storage} {name k : String} {size : Nat}
    {reserved : List String} {e : Entry}
    (hwf : s.WF) (hk : lookupE s k = some e) (hprot : 0 < e.users ∨ k ∈ reserved) :
    ((lookupE (s.acquire name size reserved).2.1 k).map (fun e2 => e2.size) = some e.size)
    ∧ k ∉ (s.acquire name size reserved).2.2 := by
  cases hfpk : findPair s.residents k with
  | none =>
    rw [lookupE, hfpk] at hk
    exact Option.noConfusion hk
  | some pk =>
    have hek : pk.2 = e := by
      rw [lookupE, hfpk] at hk
      exact Option.some.inj hk
    cases hl : lookupE s name with
    | some e2 =>
      have hacq : s.acquire name size reserved = (true, Storage.mk s.capacity s.in_use
          (updEntry s.residents name (fun e3 => { e3 with users := e3.users + 1 })), []) := by
        simp only [Storage.acquire, hl]
      simp only [hacq]
      refine ⟨?_, by simp⟩
      by_cases hkn : k = name
      · subst hkn
        rw [lookupE, residents_mk, findPair_updEntry_self, hfpk, ← hek]
        rfl
      · rw [lookupE, residents_mk, findPair_updEntry_ne _ _ hkn, hfpk, ← hek]
        rfl
    | none =>
      have hkn : k ≠ name := by
        intro hc
        rw [hc, hl] at hk
        exact Option.noConfusion hk
      by_cases hover : s.capacity < s.in_use + size
      · cases ht : tryEvict s size reserved with
        | none =>
          have hacq : s.acquire name size reserved = (false, s, []) := by
            simp only [Storage.acquire, hl]
            rw [if_pos hover, ht]
          simp only [hacq]
          refine ⟨?_, by simp⟩
          rw [lookupE, hfpk]
          simp [hek]
        | some pr =>
          obtain ⟨s1, del⟩ := pr
          obtain ⟨h1wf, h1cap, h1look, h1del, h1acc⟩ := tryEvict_some hwf ht
          have hacq : s.acquire name size reserved = (true, Storage.mk s1.capacity
              (s1.in_use + size) (s1.residents ++ [(name, ⟨size, 1⟩)]), del) := by
            simp only [Storage.acquire, hl]
            rw [if_pos hover, ht]
          have hkdel : k ∉ del := by
            intro hc
            obtain ⟨e3, he3, hu3, hr3⟩ := h1del k hc
            rw [hk] at he3
            obtain rfl := Option.some.inj he3
            rcases hprot with h | h
            · omega
            · exact hr3 h
          have h1k : findPair s1.residents k = some pk := by
            have := h1look k hkdel
            rw [lookupE, lookupE, hfpk] at this
            cases hfp1 : findPair s1.residents k with
            | none => rw [hfp1] at this; exact Option.noConfusion this
            | some q =>
              rw [hfp1] at this
              have hq2 : q.2 = pk.2 := Option.some.inj this
              have hqk : q.1 = k := (findPair_mem hfp1).2
              have hpkk : pk.1 = k := (findPair_mem hfpk).2
              rw [Option.some.injEq]
              cases q with
              | mk q1 q2 =>
                cases pk with
                | mk pk1 pk2 =>
                  simp only at hq2 hqk hpkk
                  rw [hq2, hqk, hpkk]
          simp only [hacq]
          constructor
          · rw [lookupE, residents_mk, findPair_append, h1k, ← hek]
            rfl
          · exact hkdel
      · have hacq : s.acquire name size reserved = (true, Storage.mk s.capacity
            (s.in_use + size) (s.residents ++ [(name, ⟨size, 1⟩)]), []) := by
          simp only [Storage.acquire, hl]
          rw [if_neg hover]
        simp only [hacq]
        refine ⟨?_, by simp⟩
        rw [lookupE, residents_mk, findPair_append, hfpk, ← hek]
        rfl

/-- C7 witness instance: in a cache with a protected 3-byte entry "a" (one user)
and an evictable 6-byte entry "b", acquiring 5 bytes for "c" evicts only "b". -/
theorem C7_eviction_spares_protected_witness :
    ((⟨10, 9, [("a", ⟨3, 1⟩), ("b", ⟨6, 0⟩)]⟩ : Storage).WF
      ∧ lookupE ⟨10, 9, [("a", ⟨3, 1⟩), ("b", ⟨6, 0⟩)]⟩ "a" = some ⟨3, 1⟩
      ∧ 0 < (⟨3, 1⟩ : Entry).users)
    ∧ ((lookupE ((⟨10, 9, [("a", ⟨3, 1⟩), ("b", ⟨6, 0⟩)]⟩ : Storage).acquire "c" 5 []).2.1
          "a").map (fun e2 => e2.size) = some (⟨3, 1⟩ : Entry).size
      ∧ "a" ∉ ((⟨10, 9, [("a", ⟨3, 1⟩), ("b", ⟨6, 0⟩)]⟩ : Storage).acquire "c" 5 []).2.2) :=
  ⟨⟨WF_mk (by decide), by decide, by decide⟩,
    C7_eviction_spares_protected (WF_mk (by decide)) (by decide) (Or.inl (by decide))⟩

/-- C8 counterexample: on an empty cache of capacity 10 the claim's hypotheses
hold for `acquire("a", 5, {})` (name not resident, the evictable entries can free
only 0 < 5 bytes), yet the call returns `Ok(true)` and inserts the entry, because
the free capacity suffices without any eviction. -/
theorem C8_cex :
    lookupE (openScan [] 10) "a" = none
    ∧ evictableSum (openScan [] 10) [] < 5
    ∧ ((openScan [] 10).acquire "a" 5 []).1 = true := by decide

/-- C8 (amended): when the name is not resident, the requested size exceeds the
free capacity (`in_use + size > capacity`), and the evictable entries (zero users
and not reserved) cannot free at least `size` bytes, `acquire` returns `Ok(false)`
and leaves the residents, `in_use`, and the on-disk files exactly as they were. -/
theorem C8_acquire_fail_no_effect {s : Storage} {name : String} {size : Nat}
    {reserved : List String}
    (hno : lookupE s name = none)
    (hover : s.capacity < s.in_use + size)
    (hsum : evictableSum s reserved < size) :
    s.acquire name size reserved = (false, s, []) := by
  simp only [Storage.acquire, hno]
  rw [if_pos hover, tryEvict_fail hsum]

/-- C8 witness instance: a full cache whose only entry is in use cannot admit a
3-byte acquire; the call fails and changes nothing. -/
theorem C8_acquire_fail_no_effect_witness :
    (lookupE ⟨5, 5, [("a", ⟨5, 1⟩)]⟩ "b" = none
      ∧ (⟨5, 5, [("a", ⟨5, 1⟩)]⟩ : Storage).capacity
          < (⟨5, 5, [("a", ⟨5, 1⟩)]⟩ : Storage).in_use + 3
      ∧ evictableSum ⟨5, 5, [("a", ⟨5, 1⟩)]⟩ [] < 3)
    ∧ (⟨5, 5, [("a", ⟨5, 1⟩)]⟩ : Storage).acquire "b" 3 []
        = (false, ⟨5, 5, [("a", ⟨5, 1⟩)]⟩, []) :=
  ⟨⟨by decide, by decide, by decide⟩,
    C8_acquire_fail_no_effect (by decide) (by decide) (by decide)⟩

/-- C9: `release` errors with `InvalidPath` on a non-resident name; on a resident
name with positive user count it decrements the count while leaving `in_use` and
every resident's key and size unchanged (no file is deleted); at zero users it is
a no-op returning the cache unchanged (the count never goes negative); and after
as many successful releases as prior successful acquires of a name that started
at zero users, the user count is back to zero. -/
theorem C9_release_spec (s : Storage) (n : String) (e : Entry)
    (args : List (Nat × List String)) (s1 : Storage) (hwf : s.WF) :
    (lookupE s n = none → s.release n = .error StorageError.invalidPath)
    ∧ (lookupE s n = some e → 0 < e.users →
        usersAfter (s.release n).toOption n = some (e.users - 1)
        ∧ (s.release n).toOption.map (fun t => t.in_use) = some s.in_use
        ∧ (s.release n).toOption.map (fun t => t.residents.map (fun p => (p.1, p.2.size)))
            = some (s.residents.map (fun p => (p.1, p.2.size))))
    ∧ (lookupE s n = some e → e.users = 0 → s.release n = .ok s)
    ∧ (usersOf s n = 0 → acquireN n args s = some s1 →
        usersAfter (releaseN n args.length s1) n = some 0) := by
  refine ⟨?_, ?_, ?_, ?_⟩
  · intro hl
    rw [Storage.release, hl]
  · intro hl hu
    cases hfp : findPair s.residents n with
    | none =>
      rw [lookupE, hfp] at hl
      exact Option.noConfusion hl
    | some pr =>
      have hsome : (findPair s.residents n).isSome := by rw [hfp]; rfl
      have hek : pr.2 = e := by
        rw [lookupE, hfp] at hl
        exact Option.some.inj hl
      have hrel : s.release n = .ok (Storage.mk s.capacity s.in_use
          (updEntry s.residents n
            (fun e2 => if 0 < e2.users then { e2 with users := e2.users - 1 } else e2))) := by
        rw [Storage.release, lookupE, hfp]
        rfl
      have hu2 : 0 < pr.2.users := by rw [hek]; exact hu
      rw [hrel]
      refine ⟨?_, rfl, ?_⟩
      · show some (usersOf (Storage.mk s.capacity s.in_use
            (updEntry s.residents n
              (fun e2 => if 0 < e2.users then { e2 with users := e2.users - 1 } else e2))) n)
          = some (e.users - 1)
        rw [usersOf_eq, residents_mk, findPair_updEntry_self, hfp, ← hek]
        simp [hu2]
      · show some ((updEntry s.residents n
            (fun e2 => if 0 < e2.users then { e2 with users := e2.users - 1 } else e2)).map
              (fun p => (p.1, p.2.size)))
          = some (s.residents.map (fun p => (p.1, p.2.size)))
        rw [keysSizes_updEntry s.residents n _
          (fun e2 => by by_cases h2 : 0 < e2.users <;> simp [h2])]
  · intro hl hu
    cases hfp : findPair s.residents n with
    | none =>
      rw [lookupE, hfp] at hl
      exact Option.noConfusion hl
    | some pr =>
      have hek : pr.2 = e := by
        rw [lookupE, hfp] at hl
        exact Option.some.inj hl
      rw [Storage.release, hl]
      have hid : updEntry s.residents n
          (fun e2 => if 0 < e2.users then { e2 with users := e2.users - 1 } else e2)
          = s.residents := by
        refine updEntry_id s.residents n ?_
        intro p hp hpk
        have hpmem := (findPair_mem hfp).1
        have hpr : p = pr := mem_key_unique hwf hp hpmem (by rw [hpk, (findPair_mem hfp).2])
        rw [hpr, hek, hu]
        simp
      rw [hid]
  · intro hu0 hacq
    cases args with
    | nil =>
      obtain rfl := Option.some.inj hacq
      simp [releaseN, usersAfter, hu0]
    | cons a rest =>
      obtain ⟨hu1, h1wf, hsome1⟩ := acquireN_users n (a :: rest) s s1 hwf hacq
      rw [releaseN_users n (a :: rest).length s1 (hsome1 (by simp)), hu1, hu0]
      simp

/-- C9 witness instance: two acquires of the scanned zero-user entry "a" followed
by two releases return its user count to zero; the release of a missing name
fails; releasing at zero users is a no-op. -/
theorem C9_release_spec_witness :
    ((⟨10, 4, [("a", ⟨4, 0⟩)]⟩ : Storage).WF ∧ usersOf ⟨10, 4, [("a", ⟨4, 0⟩)]⟩ "a" = 0
      ∧ acquireN "a" [(4, []), (4, [])] ⟨10, 4, [("a", ⟨4, 0⟩)]⟩
          = some ⟨10, 4, [("a", ⟨4, 2⟩)]⟩
      ∧ lookupE ⟨10, 4, [("a", ⟨4, 0⟩)]⟩ "a" = some ⟨4, 0⟩ ∧ (⟨4, 0⟩ : Entry).users = 0)
    ∧ ((lookupE ⟨10, 4, [("a", ⟨4, 0⟩)]⟩ "a" = some ⟨4, 0⟩ → (⟨4, 0⟩ : Entry).users = 0 →
          (⟨10, 4, [("a", ⟨4, 0⟩)]⟩ : Storage).release "a" = .ok ⟨10, 4, [("a", ⟨4, 0⟩)]⟩)
      ∧ (usersOf ⟨10, 4, [("a", ⟨4, 0⟩)]⟩ "a" = 0 →
          acquireN "a" [(4, []), (4, [])] ⟨10, 4, [("a", ⟨4, 0⟩)]⟩
            = some ⟨10, 4, [("a", ⟨4, 2⟩)]⟩ →
          usersAfter (releaseN "a" ([(4, ([] : List String)), (4, [])]).length
            ⟨10, 4, [("a", ⟨4, 2⟩)]⟩) "a" = some 0)) :=
  ⟨⟨WF_mk (by decide), by decide, by decide, by decide, by decide⟩,
    (C9_release_spec ⟨10, 4, [("a", ⟨4, 0⟩)]⟩ "a" ⟨4, 0⟩ [(4, []), (4, [])]
      ⟨10, 4, [("a", ⟨4, 2⟩)]⟩ (WF_mk (by decide))).2.2⟩

/-- Media item as the playlist logic sees it (an `AlbumItem`): stable id,
creation time in seconds since the epoch, cache-relative path and byte size of
its content (the last two serve the slideshow orchestrator). -/
structure Item where
  id : Nat
  time : Nat
  path : String
  size : Nat
deriving DecidableEq, Repr

/-- Descending creation-time order of `FreshItemSelector::drain`'s
`sort_unstable_by_key(Reverse(created_time))`. -/
def timeDesc (a b : Item) : Prop := b.time ≤ a.time

instance : DecidableRel timeDesc := fun a b => Nat.decLe b.time a.time

instance : IsTotal Item timeDesc := ⟨fun a b => Nat.le_total b.time a.time⟩

instance : IsTrans Item timeDesc := ⟨fun _ _ _ h1 h2 => Nat.le_trans h2 h1⟩

/-- Model of `rand::Rng::gen_range(0, n)`: consume the head draw modulo `n`. -/
def genRange (rng : List Nat) (n : Nat) : Nat × List Nat :=
  (rng.headD 0 % n, rng.tail)

/-- Reservoir of `RandomSlots<T>`: capacity, slot vector and `count` of pushes. -/
structure RandomSlots where
  capacity : Nat
  slots : List (Option Item)
  count : Nat
deriving DecidableEq, Repr

/-- Model of `RandomSlots::new`. -/
def RandomSlots.new (capacity : Nat) : RandomSlots := ⟨capacity, [], 0⟩

/-- Model of `RandomSlots::push`: increment `count`; append while the slot
vector is below capacity; otherwise draw `p ∈ [0, count)` and either overwrite
slot `p` (discarding the displaced occupant, returning nothing) or reject the
pushed item. -/
def RandomSlots.push (rs : RandomSlots) (it : Item) (rng : List Nat) :
    Option Item × RandomSlots × List Nat :=
  let count2 := rs.count + 1
  if rs.slots.length < rs.capacity then
    (none, ⟨rs.capacity, rs.slots ++ [some it], count2⟩, rng)
  else
    let d := genRange rng count2
    if rs.capacity ≤ d.1 then (some it, ⟨rs.capacity, rs.slots, count2⟩, d.2)
    else (none, ⟨rs.capacity, rs.slots.set d.1 (some it), count2⟩, d.2)

/-- Circular scan of `RandomSlots::pick_random`: from start index `i`, find the
first occupied slot within `fuel` steps (the source loops until it returns to
the start). -/
def scanOcc (slots : List (Option Item)) : Nat → Nat → Option Nat
  | _, 0 => none
  | i, fuel + 1 =>
    if (slots.getD i none).isSome then some i
    else scanOcc slots ((i + 1) % slots.length) fuel

/-- Model of `RandomSlots::pick_random`: draw a start slot, scan circularly for
an occupied one and take its item. -/
def RandomSlots.pick (rs : RandomSlots) (rng : List Nat) :
    Option Item × RandomSlots × List Nat :=
  if rs.slots.isEmpty then (none, rs, rng)
  else
    let d := genRange rng rs.slots.length
    match scanOcc rs.slots d.1 rs.slots.length with
    | some i => (rs.slots.getD i none, ⟨rs.capacity, rs.slots.set i none, rs.count⟩, d.2)
    | none => (none, rs, d.2)

/-- Drain of `OldItemSelector::drain`: `max_items` picks, keeping the hits
(`flat_map` over `0..max_items`). -/
def drainOld : Nat → RandomSlots → List Nat → List Item
  | 0, _, _ => []
  | k + 1, rs, rng =>
    match rs.pick rng with
    | (some it, rs2, rng2) => it :: drainOld k rs2 rng2
    | (none, rs2, rng2) => drainOld k rs2 rng2

/-- State of `FreshItemSelector`: the cutoff `min_fresh_time = now −
fresh_retention` and the retained items in arrival order. -/
structure FreshSel where
  min_fresh_time : Nat
  items : List Item
deriving DecidableEq, Repr

/-- Model of `FreshItemSelector::take`: retain items created at or after the
cutoff, pass older ones on. -/
def FreshSel.take (f : FreshSel) (it : Item) : FreshSel × Option Item :=
  if f.min_fresh_time ≤ it.time then ({ f with items := f.items ++ [it] }, none)
  else (f, some it)

/-- Model of `FreshItemSelector::drain`: retained items sorted newest first. -/
def FreshSel.drain (f : FreshSel) : List Item :=
  f.items.insertionSort timeDesc

/-- State of `OldItemSelector`: its `max_items` and the reservoir. -/
structure OldSel where
  max_items : Nat
  rand_slots : RandomSlots
deriving DecidableEq, Repr

/-- Model of `OldItemSelector::new(max_items)`. -/
def OldSel.new (maxItems : Nat) : OldSel := ⟨maxItems, RandomSlots.new maxItems⟩

/-- Configuration of `PlaylistBuilder` (`min_size`, `max_size`, and
`fresh_retention` in seconds). -/
structure PlaylistBuilder where
  min_size : Nat
  max_size : Nat
  fresh_retention : Nat
deriving DecidableEq, Repr

/-- Pipeline state of `PlaylistBuilder::build`: the fresh selector, the old
selector and the remaining RNG draws. -/
structure BuildSt where
  fresh : FreshSel
  old : OldSel
  rng : List Nat
deriving DecidableEq, Repr

/-- Selector construction of `PlaylistBuilder::build`:
`FreshItemSelector::new(self.fresh_retention)` (cutoff `now − fresh_retention`)
followed by `OldItemSelector::new(self.min_size)`. -/
def buildInit (b : PlaylistBuilder) (now : Nat) (rng : List Nat) : BuildSt :=
  ⟨⟨now - b.fresh_retention, []⟩, OldSel.new b.min_size, rng⟩

/-- One `Selectors::consume` step of the build pipeline: offer to the fresh
selector, pass any rejection to the old selector (whose rejection is dropped). -/
def buildStep (st : BuildSt) (it : Item) : BuildSt :=
  match st.fresh.take it with
  | (f2, none) => { st with fresh := f2 }
  | (f2, some it2) =>
    let r := st.old.rand_slots.push it2 st.rng
    { st with fresh := f2, old := { st.old with rand_slots := r.2.1 }, rng := r.2.2 }

/-- Item-consumption loop of `do_build`, stopping early once the pipeline's
locked count (the fresh selector's, the old selector locks nothing) reaches
`max_size`. -/
def buildRun (maxSize : Nat) : BuildSt → List Item → BuildSt
  | st, [] => st
  | st, it :: rest =>
    if st.fresh.items.length = maxSize then st
    else buildRun maxSize (buildStep st it) rest

/-- Inner drain loop of `Selectors::select` for one selector with `locked`
guaranteed items: stop at `max` items overall (breaking the outer loop, second
component `true`), or at `min` once the locked contribution is exhausted. -/
def selOne : List Item → Nat → List Item → Nat → Nat → List Item × Bool
  | [], _, acc, _, _ => (acc, false)
  | it :: rest, locked, acc, minC, maxC =>
    if maxC ≤ acc.length then (acc, true)
    else if minC ≤ acc.length ∧ locked = 0 then (acc, false)
    else selOne rest (locked - 1) (acc ++ [it]) minC maxC

/-- Outer loop of `Selectors::select` over (locked count, drained items) pairs. -/
def selRun : List (Nat × List Item) → List Item → Nat → Nat → List Item
  | [], acc, _, _ => acc
  | d :: rest, acc, minC, maxC =>
    match selOne d.2 d.1 acc minC maxC with
    | (acc2, true) => acc2
    | (acc2, false) => selRun rest acc2 minC maxC

/-- Model of `PlaylistBuilder::build` over an album stream that yields no
errors; `now` is the current time and `rng` the stream of random draws. -/
def PlaylistBuilder.build (b : PlaylistBuilder) (now : Nat) (album : List Item)
    (rng : List Nat) : List Item :=
  let st := buildRun b.max_size (buildInit b now rng) album
  selRun [(st.fresh.items.length, st.fresh.drain),
          (0, drainOld st.old.max_items st.old.rand_slots st.rng)] [] b.min_size b.max_size

/-- C4 counterexample: `build`'s pipeline gives the old selector's reservoir the
capacity `min_size` (here 3), not `max_size` (here 5) as claimed. -/
theorem C4_old_capacity_cex :
    (buildInit ⟨3, 5, 100⟩ 0 []).old.rand_slots.capacity
      ≠ (⟨3, 5, 100⟩ : PlaylistBuilder).max_size := by decide

/-- C4 (amended): `build` runs the album through
`[FreshItemSelector::new(fresh_retention), OldItemSelector::new(min_size)]`: the
fresh cutoff is `now − fresh_retention`, and the old selector and its reservoir
take capacity `min_size` (not `max_size` as the spec says). -/
theorem C4_build_pipeline (b : PlaylistBuilder) (now : Nat) (rng : List Nat) :
    (buildInit b now rng).fresh.min_fresh_time = now - b.fresh_retention
    ∧ (buildInit b now rng).fresh.items = []
    ∧ (buildInit b now rng).old.max_items = b.min_size
    ∧ (buildInit b now rng).old.rand_slots.capacity = b.min_size
    ∧ (buildInit b now rng).old.rand_slots.slots = []
    ∧ (buildInit b now rng).rng = rng :=
  ⟨rfl, rfl, rfl, rfl, rfl, rfl⟩

/-- C5's description of `push`, as amended: `seen` is incremented first; while
the slot vector is below capacity `k` the item is appended and nothing is
rejected; otherwise `p` is drawn from `[0, seen)`; when `p < k` the item
overwrites slot `p`, the displaced occupant is discarded and nothing is
returned; when `p ≥ k` the item itself is returned as rejected. -/
def pushClaim (rs : RandomSlots) (it : Item) (rng : List Nat) :
    Option Item × RandomSlots × List Nat :=
  let seen := rs.count + 1
  if rs.slots.length < rs.capacity then
    (none, ⟨rs.capacity, rs.slots ++ [some it], seen⟩, rng)
  else
    let p := rng.headD 0 % seen
    if p < rs.capacity then
      (none, ⟨rs.capacity, rs.slots.set p (some it), seen⟩, rng.tail)
    else (some it, ⟨rs.capacity, rs.slots, seen⟩, rng.tail)

/-- C5's description of `push` exactly as the claim states it: identical to
`pushClaim` except that an overwrite returns the displaced occupant. -/
def pushClaimOrig (rs : RandomSlots) (it : Item) (rng : List Nat) :
    Option Item × RandomSlots × List Nat :=
  let seen := rs.count + 1
  if rs.slots.length < rs.capacity then
    (none, ⟨rs.capacity, rs.slots ++ [some it], seen⟩, rng)
  else
    let p := rng.headD 0 % seen
    if p < rs.capacity then
      (rs.slots.getD p none, ⟨rs.capacity, rs.slots.set p (some it), seen⟩, rng.tail)
    else (some it, ⟨rs.capacity, rs.slots, seen⟩, rng.tail)

/-- C5 counterexample: pushing into a full one-slot reservoir with draw 0
overwrites slot 0 but returns `None`; the claim predicts the displaced occupant
is returned. -/
theorem C5_push_cex :
    RandomSlots.push ⟨1, [some ⟨0, 0, "a", 0⟩], 1⟩ ⟨1, 0, "b", 0⟩ [0]
      ≠ pushClaimOrig ⟨1, [some ⟨0, 0, "a", 0⟩], 1⟩ ⟨1, 0, "b", 0⟩ [0] := by decide

/-- C5 (amended): `RandomSlots::push` behaves exactly as `pushClaim` describes:
`seen` increments first; below capacity it appends and rejects nothing; at
capacity it draws `p ∈ [0, seen)` and either overwrites slot `p` discarding the
displaced occupant (returning `None`), or returns the item itself as rejected
when `p ≥ k`. -/
theorem C5_push_spec (rs : RandomSlots) (it : Item) (rng : List Nat) :
    RandomSlots.push rs it rng = pushClaim rs it rng := by
  simp only [RandomSlots.push, pushClaim, genRange]
  by_cases h1 : rs.slots.length < rs.capacity
  · rw [if_pos h1, if_pos h1]
  · rw [if_neg h1, if_neg h1]
    by_cases h2 : rs.capacity ≤ rng.headD 0 % (rs.count + 1)
    · rw [if_pos h2, if_neg (by omega)]
    · rw [if_neg h2, if_pos (by omega)]

/-- Number of occupied slots of a reservoir. -/
def occCount (rs : RandomSlots) : Nat := rs.slots.countP (fun o => o.isSome)

theorem scanOcc_some {slots : List (Option Item)} :
    ∀ (fuel i j : Nat), scanOcc slots i fuel = some j → (slots.getD j none).isSome := by
  intro fuel
  induction fuel with
  | zero => intro i j h; exact Option.noConfusion h
  | succ fuel ih =>
    intro i j h
    simp only [scanOcc] at h
    by_cases hs : (slots.getD i none).isSome
    · rw [if_pos hs] at h
      obtain rfl := Option.some.inj h
      exact hs
    · rw [if_neg hs] at h
      exact ih _ _ h

theorem scanOcc_none_all {slots : List (Option Item)} :
    ∀ (fuel i : Nat), i < slots.length → scanOcc slots i fuel = none →
      ∀ t, t < fuel → slots.getD ((i + t) % slots.length) none = none := by
  intro fuel
  induction fuel with
  | zero => intro i _ _ t ht; omega
  | succ fuel ih =>
    intro i hi h t ht
    have hlen : 0 < slots.length := by omega
    simp only [scanOcc] at h
    by_cases hs : (slots.getD i none).isSome
    · rw [if_pos hs] at h
      exact Option.noConfusion h
    · rw [if_neg hs] at h
      cases t with
      | zero =>
        rw [Nat.add_zero, Nat.mod_eq_of_lt hi]
        exact Option.not_isSome_iff_eq_none.mp hs
      | succ t =>
        have h2 := ih ((i + 1) % slots.length) (Nat.mod_lt _ hlen) h t (by omega)
        rw [Nat.mod_add_mod] at h2
        have : i + 1 + t = i + (t + 1) := by omega
        rw [this] at h2
        exact h2

theorem scanOcc_finds {slots : List (Option Item)}
    (hocc : 0 < slots.countP (fun o => o.isSome)) {i : Nat} (hi : i < slots.length) :
    scanOcc slots i slots.length ≠ none := by
  intro hnone
  obtain ⟨o, ho, hos⟩ := List.countP_pos_iff.mp hocc
  obtain ⟨j, hj, hje⟩ := List.getElem_of_mem ho
  have hall := scanOcc_none_all slots.length i hi hnone
  by_cases hij : i ≤ j
  · have hth := hall (j - i) (by omega)
    have : i + (j - i) = j := by omega
    rw [this, Nat.mod_eq_of_lt hj] at hth
    rw [List.getD_eq_getElem _ _ hj, hje] at hth
    rw [hth] at hos
    simp at hos
  · have hth := hall (j + slots.length - i) (by omega)
    have : i + (j + slots.length - i) = j + slots.length := by omega
    rw [this, Nat.add_mod_right, Nat.mod_eq_of_lt hj] at hth
    rw [List.getD_eq_getElem _ _ hj, hje] at hth
    rw [hth] at hos
    simp at hos

theorem countP_set_none : ∀ (slots : List (Option Item)) (i : Nat), i < slots.length →
    (slots.getD i none).isSome →
    (slots.set i none).countP (fun o => o.isSome)
      = slots.countP (fun o => o.isSome) - 1 := by
  intro slots
  induction slots with
  | nil => intro i hi; simp at hi
  | cons o rest ih =>
    intro i hi hs
    cases i with
    | zero =>
      have ho : o.isSome := hs
      simp [List.countP_cons, ho]
    | succ i =>
      have hs2 : (rest.getD i none).isSome := by
        rw [List.getD_cons_succ] at hs
        exact hs
      have hi2 : i < rest.length := by simpa using hi
      have hrec := ih i hi2 hs2
      have hc : 0 < rest.countP (fun o2 => o2.isSome) := by
        refine List.countP_pos_iff.mpr ?_
        refine ⟨rest[i], List.getElem_mem hi2, ?_⟩
        rw [List.getD_eq_getElem _ _ hi2] at hs2
        exact hs2
      simp only [List.set_cons_succ, List.countP_cons, hrec]
      omega

theorem pick_occ_pos {rs : RandomSlots} (rng : List Nat) (hocc : 0 < occCount rs) :
    ∃ it rs2 rng2, rs.pick rng = (some it, rs2, rng2)
      ∧ occCount rs2 = occCount rs - 1
      ∧ some it ∈ rs.slots
      ∧ (∀ o ∈ rs2.slots, o ∈ rs.slots ∨ o = none) := by
  have hlen : 0 < rs.slots.length := by
    rcases Nat.eq_zero_or_pos rs.slots.length with h | h
    · rw [occCount, List.length_eq_zero.mp h] at hocc
      simp at hocc
    · exact h
  have hne : ¬ rs.slots.isEmpty = true := by
    rw [List.isEmpty_iff]
    intro hc
    rw [hc] at hlen
    simp at hlen
  have hstart : (genRange rng rs.slots.length).1 < rs.slots.length :=
    Nat.mod_lt _ hlen
  cases hscan : scanOcc rs.slots ((genRange rng rs.slots.length).1) rs.slots.length with
  | none => exact absurd hscan (scanOcc_finds hocc hstart)
  | some i =>
    have his : (rs.slots.getD i none).isSome := scanOcc_some _ _ _ hscan
    have hi : i < rs.slots.length := by
      by_contra hc
      rw [List.getD_eq_getElem?_getD, List.getElem?_eq_none (by omega)] at his
      simp at his
    have hpick : rs.pick rng = (rs.slots.getD i none,
        ⟨rs.capacity, rs.slots.set i none, rs.count⟩, (genRange rng rs.slots.length).2) := by
      simp only [RandomSlots.pick]
      rw [if_neg hne, hscan]
    cases hgd : rs.slots.getD i none with
    | none => rw [hgd] at his; simp at his
    | some x =>
      refine ⟨x, _, _, by rw [hpick, hgd], ?_, ?_, ?_⟩
      · show (rs.slots.set i none).countP _ = _
        exact countP_set_none rs.slots i hi his
      · rw [List.getD_eq_getElem _ _ hi] at hgd
        rw [← hgd]
        exact List.getElem_mem hi
      · intro o ho
        exact List.mem_or_eq_of_mem_set ho

theorem pick_occ_zero (rs : RandomSlots) (rng : List Nat) (hocc : occCount rs = 0) :
    ∃ rng2, rs.pick rng = (none, rs, rng2) := by
  by_cases hne : rs.slots.isEmpty = true
  · exact ⟨rng, by simp only [RandomSlots.pick]; rw [if_pos hne]⟩
  · cases hscan : scanOcc rs.slots ((genRange rng rs.slots.length).1) rs.slots.length with
    | some i =>
      exfalso
      have his : (rs.slots.getD i none).isSome := scanOcc_some _ _ _ hscan
      have hi : i < rs.slots.length := by
        by_contra hc
        rw [List.getD_eq_getElem?_getD, List.getElem?_eq_none (by omega)] at his
        simp at his
      have : 0 < occCount rs := by
        refine List.countP_pos_iff.mpr ⟨rs.slots[i], List.getElem_mem hi, ?_⟩
        rw [List.getD_eq_getElem _ _ hi] at his
        exact his
      omega
    | none =>
      exact ⟨_, by simp only [RandomSlots.pick]; rw [if_neg hne, hscan]⟩

theorem drainOld_length (k : Nat) : ∀ (rs : RandomSlots) (rng : List Nat),
    (drainOld k rs rng).length = min k (occCount rs) := by
  induction k with
  | zero => intro rs rng; simp [drainOld]
  | succ k ih =>
    intro rs rng
    by_cases hocc : 0 < occCount rs
    · obtain ⟨it, rs2, rng2, hpick, hocc2, -, -⟩ := pick_occ_pos rng hocc
      simp only [drainOld, hpick]
      rw [List.length_cons, ih rs2 rng2, hocc2]
      omega
    · obtain ⟨rng2, hpick⟩ := pick_occ_zero rs rng (by omega)
      simp only [drainOld, hpick]
      rw [ih rs rng2]
      omega

theorem drainOld_mem (k : Nat) : ∀ (rs : RandomSlots) (rng : List Nat) (x : Item),
    x ∈ drainOld k rs rng → some x ∈ rs.slots := by
  induction k with
  | zero => intro rs rng x h; simp [drainOld] at h
  | succ k ih =>
    intro rs rng x h
    by_cases hocc : 0 < occCount rs
    · obtain ⟨it, rs2, rng2, hpick, -, hmem, hsub⟩ := pick_occ_pos rng hocc
      simp only [drainOld, hpick] at h
      rcases List.mem_cons.mp h with rfl | h2
      · exact hmem
      · rcases hsub _ (ih rs2 rng2 x h2) with h3 | h3
        · exact h3
        · exact absurd h3 (by simp)
    · obtain ⟨rng2, hpick⟩ := pick_occ_zero rs rng (by omega)
      simp only [drainOld, hpick] at h
      exact ih rs rng2 x h

/-- Boolean freshness test against the cutoff `min_fresh_time`. -/
def isFreshB (m : Nat) (it : Item) : Bool := decide (m ≤ it.time)

/-- Invariant of the build pipeline after consuming the album prefix `seen`. -/
def BInv (minFresh cap : Nat) (seen : List Item) (st : BuildSt) : Prop :=
  st.fresh.min_fresh_time = minFresh
  ∧ st.fresh.items = seen.filter (isFreshB minFresh)
  ∧ st.old.max_items = cap
  ∧ st.old.rand_slots.capacity = cap
  ∧ st.old.rand_slots.slots.length
      = min (seen.filter (fun it => !isFreshB minFresh it)).length cap
  ∧ (∀ o ∈ st.old.rand_slots.slots, o.isSome)
  ∧ (∀ o ∈ st.old.rand_slots.slots, ∀ x, o = some x → x.time < minFresh)

theorem buildStep_inv {minFresh cap : Nat} {seen : List Item} {st : BuildSt} {it : Item}
    (h : BInv minFresh cap seen st) : BInv minFresh cap (seen ++ [it]) (buildStep st it) := by
  obtain ⟨h1, h2, h3, h4, h5, h6, h7⟩ := h
  by_cases hf : minFresh ≤ it.time
  · have htake : st.fresh.take it = ({ st.fresh with items := st.fresh.items ++ [it] }, none) := by
      rw [FreshSel.take, if_pos (by rw [h1]; exact hf)]
    have hstep : buildStep st it
        = BuildSt.mk ⟨st.fresh.min_fresh_time, st.fresh.items ++ [it]⟩ st.old st.rng := by
      simp only [buildStep, htake]
    rw [hstep]
    refine ⟨h1, ?_, h3, h4, ?_, h6, h7⟩
    · show st.fresh.items ++ [it] = _
      rw [h2, List.filter_append]
      simp [isFreshB, hf]
    · show st.old.rand_slots.slots.length = _
      rw [h5, List.filter_append]
      simp [isFreshB, hf]
  · have htake : st.fresh.take it = (st.fresh, some it) := by
      rw [FreshSel.take, if_neg (by rw [h1]; exact hf)]
    have htime : it.time < minFresh := by omega
    have hfil : (seen ++ [it]).filter (isFreshB minFresh) = seen.filter (isFreshB minFresh) := by
      rw [List.filter_append]
      simp [isFreshB, hf]
    have hfil2 : ((seen ++ [it]).filter (fun it2 => !isFreshB minFresh it2)).length
        = (seen.filter (fun it2 => !isFreshB minFresh it2)).length + 1 := by
      rw [List.filter_append]
      simp [isFreshB, hf]
    by_cases hroom : st.old.rand_slots.slots.length < st.old.rand_slots.capacity
    · have hpush : st.old.rand_slots.push it st.rng = (none,
          RandomSlots.mk st.old.rand_slots.capacity (st.old.rand_slots.slots ++ [some it])
            (st.old.rand_slots.count + 1), st.rng) := by
        simp only [RandomSlots.push]
        rw [if_pos hroom]
      have hstep : buildStep st it = BuildSt.mk st.fresh
          (OldSel.mk st.old.max_items (RandomSlots.mk st.old.rand_slots.capacity
            (st.old.rand_slots.slots ++ [some it]) (st.old.rand_slots.count + 1))) st.rng := by
        simp only [buildStep, htake, hpush]
      rw [hstep]
      have hocap : st.old.rand_slots.slots.length < cap := by rw [← h4]; exact hroom
      refine ⟨h1, by rw [h2, hfil], h3, h4, ?_, ?_, ?_⟩
      · show (st.old.rand_slots.slots ++ [some it]).length = _
        rw [List.length_append, hfil2]
        rw [h5] at hocap ⊢
        simp only [List.length_cons, List.length_nil]
        omega
      · intro o ho
        rcases List.mem_append.mp ho with h8 | h8
        · exact h6 o h8
        · simp only [List.mem_singleton] at h8
          rw [h8]
          rfl
      · intro o ho x hx
        rcases List.mem_append.mp ho with h8 | h8
        · exact h7 o h8 x hx
        · simp only [List.mem_singleton] at h8
          rw [h8] at hx
          obtain rfl := Option.some.inj hx
          exact htime
    · by_cases hrej : st.old.rand_slots.capacity ≤ (genRange st.rng (st.old.rand_slots.count + 1)).1
      · have hpush : st.old.rand_slots.push it st.rng = (some it,
            RandomSlots.mk st.old.rand_slots.capacity st.old.rand_slots.slots
              (st.old.rand_slots.count + 1), (genRange st.rng (st.old.rand_slots.count + 1)).2) := by
          simp only [RandomSlots.push]
          rw [if_neg hroom, if_pos hrej]
        have hstep : buildStep st it = BuildSt.mk st.fresh
            (OldSel.mk st.old.max_items (RandomSlots.mk st.old.rand_slots.capacity
              st.old.rand_slots.slots (st.old.rand_slots.count + 1)))
            (genRange st.rng (st.old.rand_slots.count + 1)).2 := by
          simp only [buildStep, htake, hpush]
        rw [hstep]
        have hocap : ¬ st.old.rand_slots.slots.length < cap := by rw [← h4]; exact hroom
        refine ⟨h1, by rw [h2, hfil], h3, h4, ?_, h6, h7⟩
        show st.old.rand_slots.slots.length = _
        rw [hfil2]
        rw [h5] at hocap ⊢
        omega
      · have hpush : st.old.rand_slots.push it st.rng = (none,
            RandomSlots.mk st.old.rand_slots.capacity
              (st.old.rand_slots.slots.set (genRange st.rng (st.old.rand_slots.count + 1)).1 (some it))
              (st.old.rand_slots.count + 1), (genRange st.rng (st.old.rand_slots.count + 1)).2) := by
          simp only [RandomSlots.push]
          rw [if_neg hroom, if_neg hrej]
        have hstep : buildStep st it = BuildSt.mk st.fresh
            (OldSel.mk st.old.max_items (RandomSlots.mk st.old.rand_slots.capacity
              (st.old.rand_slots.slots.set (genRange st.rng (st.old.rand_slots.count + 1)).1 (some it))
              (st.old.rand_slots.count + 1)))
            (genRange st.rng (st.old.rand_slots.count + 1)).2 := by
          simp only [buildStep, htake, hpush]
        rw [hstep]
        have hocap : ¬ st.old.rand_slots.slots.length < cap := by rw [← h4]; exact hroom
        refine ⟨h1, by rw [h2, hfil], h3, h4, ?_, ?_, ?_⟩
        · show (st.old.rand_slots.slots.set _ (some it)).length = _
          rw [List.length_set, hfil2]
          rw [h5] at hocap ⊢
          omega
        · intro o ho
          rcases List.mem_or_eq_of_mem_set ho with h8 | h8
          · exact h6 o h8
          · rw [h8]
            rfl
        · intro o ho x hx
          rcases List.mem_or_eq_of_mem_set ho with h8 | h8
          · exact h7 o h8 x hx
          · rw [h8] at hx
            obtain rfl := Option.some.inj hx
            exact htime

theorem foldl_buildStep_inv {minFresh cap : Nat} :
    ∀ (pfx seen : List Item) (st : BuildSt),
      BInv minFresh cap seen st
      → BInv minFresh cap (seen ++ pfx) (List.foldl buildStep st pfx) := by
  intro pfx
  induction pfx with
  | nil =>
    intro seen st h
    simpa using h
  | cons it rest ih =>
    intro seen st h
    have h3 := ih (seen ++ [it]) _ (buildStep_inv h)
    simpa [List.append_assoc] using h3

theorem buildRun_split (maxSize : Nat) : ∀ (album : List Item) (st : BuildSt),
    ∃ pfx sfx, album = pfx ++ sfx
      ∧ buildRun maxSize st album = List.foldl buildStep st pfx
      ∧ (sfx = [] ∨ (buildRun maxSize st album).fresh.items.length = maxSize) := by
  intro album
  induction album with
  | nil => exact fun st => ⟨[], [], rfl, rfl, Or.inl rfl⟩
  | cons it rest ih =>
    intro st
    by_cases hstop : st.fresh.items.length = maxSize
    · refine ⟨[], it :: rest, rfl, ?_, Or.inr ?_⟩
      · simp only [buildRun]
        rw [if_pos hstop]
        rfl
      · simp only [buildRun]
        rw [if_pos hstop]
        exact hstop
    · obtain ⟨pfx, sfx, he, hr, hl⟩ := ih (buildStep st it)
      refine ⟨it :: pfx, sfx, by rw [List.cons_append, he], ?_, ?_⟩
      · simp only [buildRun]
        rw [if_neg hstop, hr]
        rfl
      · simp only [buildRun]
        rw [if_neg hstop]
        exact hl

theorem selOne_locked_fst : ∀ (l : List Item) (locked : Nat) (acc : List Item) (minC maxC : Nat),
    l.length ≤ locked →
    (selOne l locked acc minC maxC).1 = acc ++ l.take (maxC - acc.length) := by
  intro l
  induction l with
  | nil =>
    intro locked acc minC maxC _
    simp [selOne]
  | cons it rest ih =>
    intro locked acc minC maxC hlock
    rw [List.length_cons] at hlock
    simp only [selOne]
    by_cases h1 : maxC ≤ acc.length
    · rw [if_pos h1]
      have : maxC - acc.length = 0 := by omega
      rw [this]
      simp
    · rw [if_neg h1, if_neg (by intro hc; omega)]
      rw [ih (locked - 1) (acc ++ [it]) minC maxC (by omega)]
      have hm : maxC - acc.length = (maxC - (acc ++ [it]).length) + 1 := by
        rw [List.length_append]
        simp only [List.length_cons, List.length_nil]
        omega
      rw [hm, List.take_succ_cons, List.append_assoc]
      rfl

theorem selOne_locked_snd : ∀ (l : List Item) (locked : Nat) (acc : List Item) (minC maxC : Nat),
    l.length ≤ locked →
    ((selOne l locked acc minC maxC).2 = true ↔ (l ≠ [] ∧ maxC < acc.length + l.length)) := by
  intro l
  induction l with
  | nil =>
    intro locked acc minC maxC _
    simp [selOne]
  | cons it rest ih =>
    intro locked acc minC maxC hlock
    rw [List.length_cons] at hlock
    simp only [selOne]
    by_cases h1 : maxC ≤ acc.length
    · rw [if_pos h1]
      simp only [List.length_cons]
      constructor
      · intro _
        exact ⟨by simp, by omega⟩
      · intro _
        trivial
    · rw [if_neg h1, if_neg (by intro hc; omega)]
      rw [ih (locked - 1) (acc ++ [it]) minC maxC (by omega)]
      rw [List.length_append]
      simp only [List.length_cons, List.length_nil]
      constructor
      · intro ⟨hne, hlt⟩
        exact ⟨by simp, by omega⟩
      · intro ⟨_, hlt⟩
        cases rest with
        | nil =>
          simp only [List.length_nil] at hlt
          omega
        | cons b br => exact ⟨by simp, by simp at hlt ⊢; omega⟩

theorem selOne_zero_fst (minC maxC : Nat) (h : minC ≤ maxC) :
    ∀ (l acc : List Item),
    (selOne l 0 acc minC maxC).1 = acc ++ l.take (minC - acc.length) := by
  intro l
  induction l with
  | nil =>
    intro acc
    simp [selOne]
  | cons it rest ih =>
    intro acc
    simp only [selOne]
    by_cases h1 : maxC ≤ acc.length
    · rw [if_pos h1]
      have : minC - acc.length = 0 := by omega
      rw [this]
      simp
    · rw [if_neg h1]
      by_cases h2 : minC ≤ acc.length
      · rw [if_pos (by exact ⟨h2, by trivial⟩)]
        have : minC - acc.length = 0 := by omega
        rw [this]
        simp
      · rw [if_neg (fun hc => h2 hc.1)]
        rw [ih (acc ++ [it])]
        have hm : minC - acc.length = (minC - (acc ++ [it]).length) + 1 := by
          rw [List.length_append]
          simp only [List.length_cons, List.length_nil]
          omega
        rw [hm, List.take_succ_cons, List.append_assoc]
        rfl

theorem selRun_one (lk : Nat) (D acc : List Item) (minC maxC : Nat) :
    selRun [(lk, D)] acc minC maxC = (selOne D lk acc minC maxC).1 := by
  simp only [selRun]
  cases h : selOne D lk acc minC maxC with
  | mk a fl => cases fl <;> simp

theorem selRun_two (f : Nat) (D1 D2 acc : List Item) (minC maxC : Nat) :
    selRun [(f, D1), (0, D2)] acc minC maxC
      = (if (selOne D1 f acc minC maxC).2 then (selOne D1 f acc minC maxC).1
         else (selOne D2 0 (selOne D1 f acc minC maxC).1 minC maxC).1) := by
  simp only [selRun]
  cases h : selOne D1 f acc minC maxC with
  | mk a fl =>
    cases fl
    · simp only [Bool.false_eq_true, if_false]
      cases h2 : selOne D2 0 a minC maxC with
      | mk a2 fl2 => cases fl2 <;> simp
    · simp

/-- C6 counterexample: with `min_size = 5 > max_size = 2` and an album of five
fresh items whose two newest share a timestamp, `build` returns only those two
equal-time items: the output is not strictly descending in created_time and is
shorter than `min(min_size, album size) = 5`. -/
theorem C6_build_cex :
    ((⟨5, 2, 100⟩ : PlaylistBuilder).build 100
        [⟨1, 50, "a", 0⟩, ⟨2, 50, "b", 0⟩, ⟨3, 40, "c", 0⟩, ⟨4, 30, "d", 0⟩, ⟨5, 20, "e", 0⟩] []
      = [⟨1, 50, "a", 0⟩, ⟨2, 50, "b", 0⟩])
    ∧ ¬ ((⟨5, 2, 100⟩ : PlaylistBuilder).build 100
        [⟨1, 50, "a", 0⟩, ⟨2, 50, "b", 0⟩, ⟨3, 40, "c", 0⟩, ⟨4, 30, "d", 0⟩, ⟨5, 20, "e", 0⟩] []).Pairwise
          (fun a b => b.time < a.time)
    ∧ ((⟨5, 2, 100⟩ : PlaylistBuilder).build 100
        [⟨1, 50, "a", 0⟩, ⟨2, 50, "b", 0⟩, ⟨3, 40, "c", 0⟩, ⟨4, 30, "d", 0⟩, ⟨5, 20, "e", 0⟩] []).length
      < min 5 ([⟨1, 50, "a", 0⟩, ⟨2, 50, "b", 0⟩, ⟨3, 40, "c", 0⟩, ⟨4, 30, "d", 0⟩,
          ⟨5, 20, "e", 0⟩] : List Item).length := by decide

/-- C6 (amended): for every error-free album stream, provided `min_size ≤
max_size`, `build` returns at most `max_size` items; at least `min(min_size,
album size)` items when the album has at least `min_size`; every selected fresh
item (created within `fresh_retention` of `now`) appears before every selected
old item; and the fresh prefix is non-increasing in created_time (strictly
descending when timestamps are distinct; ties may repeat, so not strictly in
general). -/
theorem C6_build_shape (b : PlaylistBuilder) (now : Nat) (album : List Item)
    (rng : List Nat) (hms : b.min_size ≤ b.max_size) :
    (b.build now album rng).length ≤ b.max_size
    ∧ (b.min_size ≤ album.length → b.min_size ≤ (b.build now album rng).length)
    ∧ (b.build now album rng)
        = (b.build now album rng).filter (isFreshB (now - b.fresh_retention))
          ++ (b.build now album rng).filter (fun it => !isFreshB (now - b.fresh_retention) it)
    ∧ ((b.build now album rng).filter (isFreshB (now - b.fresh_retention))).Pairwise timeDesc := by
  obtain ⟨pfx, sfx, halb, hrun, hstop⟩ := buildRun_split b.max_size album (buildInit b now rng)
  have hinit : BInv (now - b.fresh_retention) b.min_size [] (buildInit b now rng) := by
    refine ⟨rfl, rfl, rfl, rfl, ?_, ?_, ?_⟩
    · show ([] : List (Option Item)).length = _
      simp
    · intro o ho
      exact absurd (show o ∈ ([] : List (Option Item)) from ho) (by simp)
    · intro o ho
      exact absurd (show o ∈ ([] : List (Option Item)) from ho) (by simp)
  have hinv : BInv (now - b.fresh_retention) b.min_size pfx
      (buildRun b.max_size (buildInit b now rng) album) := by
    rw [hrun]
    simpa using foldl_buildStep_inv pfx [] _ hinit
  have hbuild : b.build now album rng
      = selRun [((buildRun b.max_size (buildInit b now rng) album).fresh.items.length,
                 (buildRun b.max_size (buildInit b now rng) album).fresh.drain),
                (0, drainOld (buildRun b.max_size (buildInit b now rng) album).old.max_items
                    (buildRun b.max_size (buildInit b now rng) album).old.rand_slots
                    (buildRun b.max_size (buildInit b now rng) album).rng)]
          [] b.min_size b.max_size := rfl
  rw [hbuild]
  generalize hst : buildRun b.max_size (buildInit b now rng) album = st
  rw [hst] at hinv hstop
  obtain ⟨h1, h2, h3, h4, h5, h6, h7⟩ := hinv
  have hD1len : st.fresh.drain.length = st.fresh.items.length :=
    (List.perm_insertionSort timeDesc st.fresh.items).length_eq
  have hD1mem : ∀ x ∈ st.fresh.drain, isFreshB (now - b.fresh_retention) x = true := by
    intro x hx
    have hx2 : x ∈ st.fresh.items := (List.perm_insertionSort timeDesc _).subset hx
    rw [h2] at hx2
    exact List.of_mem_filter hx2
  have hD1sorted : st.fresh.drain.Pairwise timeDesc :=
    List.sorted_insertionSort timeDesc st.fresh.items
  have hD2mem : ∀ x ∈ drainOld st.old.max_items st.old.rand_slots st.rng,
      isFreshB (now - b.fresh_retention) x = false := by
    intro x hx
    have hslot := drainOld_mem st.old.max_items st.old.rand_slots st.rng x hx
    have := h7 (some x) hslot x rfl
    simp [isFreshB]
    omega
  have hD2len : (drainOld st.old.max_items st.old.rand_slots st.rng).length
      = min st.old.max_items st.old.rand_slots.slots.length := by
    rw [drainOld_length]
    have : occCount st.old.rand_slots = st.old.rand_slots.slots.length :=
      List.countP_eq_length.mpr h6
    rw [this]
  rw [selRun_two]
  have hfacc : (([] : List Item)).length = 0 := rfl
  cases hflag : (selOne st.fresh.drain st.fresh.items.length [] b.min_size b.max_size).2 with
  | true =>
    have hbig := (selOne_locked_snd st.fresh.drain st.fresh.items.length [] b.min_size b.max_size
      (Nat.le_of_eq hD1len)).mp hflag
    have hM : b.max_size < st.fresh.drain.length := by
      have := hbig.2
      simpa using this
    have hacc1 : (selOne st.fresh.drain st.fresh.items.length [] b.min_size b.max_size).1
        = st.fresh.drain.take b.max_size := by
      rw [selOne_locked_fst _ _ _ _ _ (Nat.le_of_eq hD1len)]
      simp
    rw [if_pos rfl, hacc1]
    have htlen : (st.fresh.drain.take b.max_size).length = b.max_size := by
      rw [List.length_take]
      omega
    have hallf : ∀ x ∈ st.fresh.drain.take b.max_size,
        isFreshB (now - b.fresh_retention) x = true :=
      fun x hx => hD1mem x ((List.take_sublist _ _).subset hx)
    refine ⟨by omega, fun _ => by omega, ?_, ?_⟩
    · rw [List.filter_eq_self.mpr hallf,
        List.filter_eq_nil_iff.mpr (fun x hx => by simp [hallf x hx]),
        List.append_nil]
    · rw [List.filter_eq_self.mpr hallf]
      exact hD1sorted.sublist (List.take_sublist _ _)
  | false =>
    have hsmall : st.fresh.drain.length ≤ b.max_size := by
      by_cases hne : st.fresh.drain = []
      · rw [hne]
        simp
      · by_contra hc
        have h9 : (selOne st.fresh.drain st.fresh.items.length [] b.min_size b.max_size).2
            = true :=
          (selOne_locked_snd _ _ _ _ _ (Nat.le_of_eq hD1len)).mpr ⟨hne, by simp; omega⟩
        rw [hflag] at h9
        exact Bool.noConfusion h9
    have hacc1 : (selOne st.fresh.drain st.fresh.items.length [] b.min_size b.max_size).1
        = st.fresh.drain := by
      rw [selOne_locked_fst _ _ _ _ _ (Nat.le_of_eq hD1len)]
      simp only [List.length_nil, Nat.sub_zero, List.nil_append]
      exact List.take_of_length_le hsmall
    rw [if_neg (by simp), hacc1, selOne_zero_fst b.min_size b.max_size hms]
    have htlen : ((drainOld st.old.max_items st.old.rand_slots st.rng).take
        (b.min_size - st.fresh.drain.length)).length
        = min (b.min_size - st.fresh.drain.length)
            (drainOld st.old.max_items st.old.rand_slots st.rng).length := by
      rw [List.length_take]
    have hlen_out : (st.fresh.drain
        ++ (drainOld st.old.max_items st.old.rand_slots st.rng).take
            (b.min_size - st.fresh.drain.length)).length
        = st.fresh.drain.length
          + min (b.min_size - st.fresh.drain.length)
              (drainOld st.old.max_items st.old.rand_slots st.rng).length := by
      rw [List.length_append, htlen]
    have hfold : ∀ x ∈ (drainOld st.old.max_items st.old.rand_slots st.rng).take
        (b.min_size - st.fresh.drain.length), isFreshB (now - b.fresh_retention) x = false :=
      fun x hx => hD2mem x ((List.take_sublist _ _).subset hx)
    refine ⟨by omega, ?_, ?_, ?_⟩
    · intro halbum
      rcases hstop with hsfx | hfullM
      · have hpfx : pfx = album := by
          rw [halb, hsfx, List.append_nil]
        have hpart := (List.filter_append_perm (isFreshB (now - b.fresh_retention)) album).length_eq
        rw [List.length_append] at hpart
        have hfeq : st.fresh.drain.length
            = (album.filter (isFreshB (now - b.fresh_retention))).length := by
          rw [hD1len, h2, hpfx]
        have hd2 : (drainOld st.old.max_items st.old.rand_slots st.rng).length
            = min b.min_size
                (min (album.filter (fun it => !isFreshB (now - b.fresh_retention) it)).length
                  b.min_size) := by
          rw [hD2len, h3, h5, hpfx]
        rw [hlen_out, hd2]
        omega
      · have hfM : st.fresh.drain.length = b.max_size := by rw [hD1len, hfullM]
        rw [hlen_out]
        omega
    · rw [List.filter_append, List.filter_append]
      rw [List.filter_eq_self.mpr hD1mem]
      rw [show List.filter (fun it => !isFreshB (now - b.fresh_retention) it) st.fresh.drain = []
        from List.filter_eq_nil_iff.mpr (fun x hx => by simp [hD1mem x hx])]
      rw [show List.filter (isFreshB (now - b.fresh_retention))
          ((drainOld st.old.max_items st.old.rand_slots st.rng).take
            (b.min_size - st.fresh.drain.length)) = []
        from List.filter_eq_nil_iff.mpr (fun x hx => by simp [hfold x hx])]
      rw [show List.filter (fun it => !isFreshB (now - b.fresh_retention) it)
          ((drainOld st.old.max_items st.old.rand_slots st.rng).take
            (b.min_size - st.fresh.drain.length))
          = (drainOld st.old.max_items st.old.rand_slots st.rng).take
              (b.min_size - st.fresh.drain.length)
        from List.filter_eq_self.mpr (fun x hx => by simp [hfold x hx])]
      rw [List.append_nil, List.nil_append]
    · rw [List.filter_append]
      rw [List.filter_eq_self.mpr hD1mem]
      rw [show List.filter (isFreshB (now - b.fresh_retention))
          ((drainOld st.old.max_items st.old.rand_slots st.rng).take
            (b.min_size - st.fresh.drain.length)) = []
        from List.filter_eq_nil_iff.mpr (fun x hx => by simp [hfold x hx])]
      rw [List.append_nil]
      exact hD1sorted

/-- Builder configuration used by the C6 witness instance. -/
def bW : PlaylistBuilder := ⟨3, 5, 3600⟩

/-- Album used by the C6 witness instance: two old and two fresh items under
`now = 10000` with retention 3600 (cutoff 6400). -/
def albumW : List Item :=
  [⟨100, 6399, "oa", 0⟩, ⟨101, 6398, "ob", 0⟩, ⟨102, 9999, "na", 0⟩, ⟨103, 9998, "nb", 0⟩]

/-- C6 witness instance: on a four-item album with two fresh and two old items,
the build respects the size bounds, the fresh-before-old split, and the
non-increasing fresh ordering. -/
theorem C6_build_shape_witness :
    bW.min_size ≤ bW.max_size
    ∧ ((bW.build 10000 albumW [0]).length ≤ bW.max_size
      ∧ (bW.min_size ≤ albumW.length → bW.min_size ≤ (bW.build 10000 albumW [0]).length)
      ∧ (bW.build 10000 albumW [0])
          = (bW.build 10000 albumW [0]).filter (isFreshB (10000 - bW.fresh_retention))
            ++ (bW.build 10000 albumW [0]).filter
                (fun it => !isFreshB (10000 - bW.fresh_retention) it)
      ∧ ((bW.build 10000 albumW [0]).filter (isFreshB (10000 - bW.fresh_retention))).Pairwise
          timeDesc) :=
  ⟨by decide, C6_build_shape bW 10000 albumW [0] (by decide)⟩

/-- Overwriting insert of `HashMap::insert` on the id → position map. -/
def omInsert (m : List (Nat × Nat)) (k v : Nat) : List (Nat × Nat) :=
  if (findPair m k).isSome then m.map (fun p => if p.1 = k then (k, v) else p)
  else m ++ [(k, v)]

/-- Loop of `PreviousItemSelector::new` over the enumerated previous playlist:
track the newest creation time and map each id to its position. -/
def prevInitLoop : List Item → Nat → Nat → List (Nat × Nat) → Nat × List (Nat × Nat)
  | [], _, newest, m => (newest, m)
  | it :: rest, i, newest, m =>
    prevInitLoop rest (i + 1) (if newest < it.time then it.time else newest)
      (omInsert m it.id i)

/-- State of `PreviousItemSelector`: capacity, the re-selection slots (one per
distinct previous id), the id → position map, the newest previous creation time
and the embedded fresh selector. -/
structure PrevSel where
  max_items : Nat
  prev_items : List (Option Item)
  order_map : List (Nat × Nat)
  newest_time : Nat
  fresh_selector : FreshSel
deriving DecidableEq, Repr

/-- Model of `PreviousItemSelector::new`; `minFresh` is `now − fresh_retention`
as computed by the embedded `FreshItemSelector::new`, and the epoch is 0. -/
def PrevSel.new (minFresh maxItems : Nat) (prev : List Item) : PrevSel :=
  let r := prevInitLoop prev 0 0 []
  ⟨maxItems, List.replicate r.2.length none, r.2, r.1, ⟨minFresh, []⟩⟩

/-- Model of `PreviousItemSelector::take`: re-select known ids into their former
slot; offer unknown items newer than every previous one to the embedded fresh
selector while the slot count plus fresh count is below `max_items`. -/
def PrevSel.take (sel : PrevSel) (it : Item) : PrevSel × Option Item :=
  match findPair sel.order_map it.id with
  | some pr => ({ sel with prev_items := sel.prev_items.set pr.2 (some it) }, none)
  | none =>
    if sel.newest_time < it.time
        ∧ sel.prev_items.length + sel.fresh_selector.items.length < sel.max_items then
      match sel.fresh_selector.take it with
      | (f2, r) => ({ sel with fresh_selector := f2 }, r)
    else (sel, some it)

/-- Model of `PreviousItemSelector::locked_count`. -/
def PrevSel.locked (sel : PrevSel) : Nat :=
  sel.prev_items.countP (fun o => o.isSome) + sel.fresh_selector.items.length

/-- Model of `PreviousItemSelector::drain`: newly arrived fresh items first
(sorted newest first), then the surviving previous items in former order with
gaps collapsed. -/
def PrevSel.drain (sel : PrevSel) : List Item :=
  sel.fresh_selector.drain ++ sel.prev_items.filterMap (fun o => o)

/-- Item-consumption loop of `do_build` for the update pipeline, stopping early
once the selector's locked count reaches `max_size`. -/
def updRun (maxSize : Nat) : PrevSel → List Item → PrevSel
  | sel, [] => sel
  | sel, it :: rest =>
    if sel.locked = maxSize then sel
    else updRun maxSize (sel.take it).1 rest

/-- Model of `PlaylistBuilder::updated` over an error-free album stream. -/
def PlaylistBuilder.updated (b : PlaylistBuilder) (now : Nat) (album prev : List Item) :
    Option (List Item) :=
  let sel := updRun b.max_size (PrevSel.new (now - b.fresh_retention) b.max_size prev) album
  let res := selRun [(sel.locked, sel.drain)] [] b.min_size b.max_size
  if res = prev then none else some res

/-- Expected contents of the order map built by `PreviousItemSelector::new`:
each previous id paired with its position, positions starting at `i`. -/
def omList : List Item → Nat → List (Nat × Nat)
  | [], _ => []
  | it :: rest, i => (it.id, i) :: omList rest (i + 1)

/-- Newest creation time among the previous items (0 for an empty playlist). -/
def newestOf (prev : List Item) : Nat :=
  prev.foldl (fun t it => if t < it.time then it.time else t) 0

/-- Candidate test for the embedded fresh selector of the update pipeline:
unknown id and strictly newer than every previous item. -/
def candB (prev : List Item) (N : Nat) (a : Item) : Bool :=
  decide (a.id ∉ prev.map (fun it => it.id)) && decide (N < a.time)

/-- Predicted slot states after consuming `xs`: a previous item is re-selected
exactly when its id has appeared in `xs`. -/
def prevMark (prev xs : List Item) : List (Option Item) :=
  prev.map (fun p => if p.id ∈ xs.map (fun it => it.id) then some p else none)

theorem omList_keys : ∀ (prev : List Item) (i : Nat),
    (omList prev i).map (fun p => p.1) = prev.map (fun it => it.id) := by
  intro prev
  induction prev with
  | nil => intro i; rfl
  | cons it rest ih => intro i; simp only [omList, List.map_cons, ih]

theorem omList_length (prev : List Item) (i : Nat) :
    (omList prev i).length = prev.length := by
  have h := congrArg List.length (omList_keys prev i)
  simpa using h

theorem omList_find_none {prev : List Item} {k : Nat} (i : Nat) :
    findPair (omList prev i) k = none ↔ k ∉ prev.map (fun it => it.id) := by
  rw [findPair_eq_none_iff, omList_keys]

theorem omList_find_some : ∀ (prev : List Item) (i k : Nat) (pr : Nat × Nat),
    findPair (omList prev i) k = some pr →
    ∃ j, ∃ hj : j < prev.length, pr = (k, i + j) ∧ (prev.get ⟨j, hj⟩).id = k := by
  intro prev
  induction prev with
  | nil => intro i k pr h; exact Option.noConfusion h
  | cons it rest ih =>
    intro i k pr h
    simp only [omList, findPair_cons] at h
    by_cases hk : it.id = k
    · rw [if_pos (by simpa using hk)] at h
      refine ⟨0, by simp, ?_, by simpa using hk⟩
      have := Option.some.inj h
      rw [← this, ← hk]
      simp
    · rw [if_neg (by simpa using hk)] at h
      obtain ⟨j, hj, hpr, hid⟩ := ih (i + 1) k pr h
      refine ⟨j + 1, by simpa using Nat.succ_lt_succ hj, ?_, by simpa using hid⟩
      rw [hpr]
      have : i + 1 + j = i + (j + 1) := by omega
      rw [this]

theorem prevInitLoop_fst : ∀ (prev : List Item) (i t : Nat) (m : List (Nat × Nat)),
    (prevInitLoop prev i t m).1
      = prev.foldl (fun t2 it => if t2 < it.time then it.time else t2) t := by
  intro prev
  induction prev with
  | nil => intro i t m; rfl
  | cons it rest ih =>
    intro i t m
    simp only [prevInitLoop, List.foldl_cons]
    rw [ih]

theorem prevInitLoop_snd : ∀ (prev : List Item) (i t : Nat) (m : List (Nat × Nat)),
    (prev.map (fun it => it.id)).Nodup →
    (∀ a ∈ prev, findPair m a.id = none) →
    (prevInitLoop prev i t m).2 = m ++ omList prev i := by
  intro prev
  induction prev with
  | nil => intro i t m _ _; simp [prevInitLoop, omList]
  | cons it rest ih =>
    intro i t m hnd hnone
    simp only [List.map_cons, List.nodup_cons] at hnd
    have hmi : omInsert m it.id i = m ++ [(it.id, i)] := by
      have hn := hnone it (List.mem_cons_self it rest)
      rw [omInsert, hn]
      rfl
    simp only [prevInitLoop, hmi]
    rw [ih (i + 1) _ _ hnd.2 ?hrest]
    · simp [omList]
    case hrest =>
      intro a ha
      rw [findPair_append, hnone a (List.mem_cons_of_mem it ha)]
      have hane : a.id ≠ it.id := by
        intro hc
        exact hnd.1 (hc ▸ List.mem_map.mpr ⟨a, ha, rfl⟩)
      have hfp1 : findPair [(it.id, i)] a.id = none := by
        rw [findPair_cons, if_neg (fun hh => hane hh.symm)]
        rfl
      simp [hfp1]

theorem prevMark_length (prev xs : List Item) :
    (prevMark prev xs).length = prev.length := by
  simp [prevMark]

theorem prevMark_nil (prev : List Item) :
    prevMark prev [] = List.replicate prev.length none := by
  induction prev with
  | nil => rfl
  | cons p rest ih =>
    simp only [prevMark, List.map_cons, List.length_cons, List.replicate_succ] at ih ⊢
    simp [ih]

theorem prevMark_skip {prev : List Item} {x : Item} (xs : List Item)
    (h : x.id ∉ prev.map (fun it => it.id)) :
    prevMark prev (xs ++ [x]) = prevMark prev xs := by
  simp only [prevMark]
  apply List.map_congr_left
  intro p hp
  have hne : p.id ≠ x.id := fun hc => h (hc ▸ List.mem_map.mpr ⟨p, hp, rfl⟩)
  simp [hne]

theorem prevMark_set {prev : List Item} {x : Item} {j : Nat} (xs : List Item)
    (hj : j < prev.length)
    (hids : (prev.map (fun it => it.id)).Nodup)
    (hid : (prev.get ⟨j, hj⟩).id = x.id)
    (hx : prev.get ⟨j, hj⟩ = x) :
    prevMark prev (xs ++ [x]) = (prevMark prev xs).set j (some x) := by
  apply List.ext_getElem
  · simp [prevMark]
  · intro m hm1 hm2
    have hmlen : m < prev.length := by simpa [prevMark] using hm1
    by_cases hmj : m = j
    · subst hmj
      rw [List.getElem_set_self]
      simp only [prevMark, List.getElem_map]
      have hmem : prev[m].id ∈ (xs ++ [x]).map (fun it => it.id) := by
        rw [show prev[m] = prev.get ⟨m, hj⟩ from rfl, hid]
        simp
      rw [if_pos hmem, show prev[m] = prev.get ⟨m, hj⟩ from rfl, hx]
    · rw [List.getElem_set_ne (fun hc => hmj hc.symm)]
      have hneq : prev[m].id ≠ x.id := by
        intro hc
        apply hmj
        have hmm : m < (prev.map (fun it => it.id)).length := by simpa using hmlen
        have hjm : j < (prev.map (fun it => it.id)).length := by simpa using hj
        have hgm : (prev.map (fun it => it.id))[m] = (prev.map (fun it => it.id))[j] := by
          simp only [List.getElem_map]
          rw [hc, show prev[j] = prev.get ⟨j, hj⟩ from rfl, hid]
        exact (List.Nodup.getElem_inj_iff hids).mp hgm
      simp only [prevMark, List.getElem_map]
      have hiff : (prev[m].id ∈ (xs ++ [x]).map (fun it => it.id))
          ↔ prev[m].id ∈ xs.map (fun it => it.id) := by
        constructor
        · intro hmem
          rcases List.mem_map.mp hmem with ⟨a, hax, haid⟩
          rcases List.mem_append.mp hax with h1 | h1
          · exact List.mem_map.mpr ⟨a, h1, haid⟩
          · have hax2 : a = x := by simpa using h1
            exact absurd (by rw [← haid, hax2]) hneq
        · intro hmem
          rcases List.mem_map.mp hmem with ⟨a, hax, haid⟩
          exact List.mem_map.mpr ⟨a, List.mem_append_left _ hax, haid⟩
      rw [if_congr hiff rfl rfl]

theorem prevMark_filterMap (prev xs : List Item) :
    (prevMark prev xs).filterMap (fun o => o)
      = prev.filter (fun p => decide (p.id ∈ xs.map (fun it => it.id))) := by
  induction prev with
  | nil => rfl
  | cons p rest ih =>
    have hcons : prevMark (p :: rest) xs
        = (if p.id ∈ xs.map (fun it => it.id) then some p else none) :: prevMark rest xs := rfl
    rw [hcons]
    by_cases hc : p.id ∈ xs.map (fun it => it.id)
    · rw [if_pos hc]
      rw [show List.filterMap (fun o => o) ((some p) :: prevMark rest xs)
          = p :: List.filterMap (fun o => o) (prevMark rest xs) from rfl]
      rw [ih, List.filter_cons, if_pos (by simpa using hc)]
    · rw [if_neg hc]
      rw [show List.filterMap (fun o => o) ((none : Option Item) :: prevMark rest xs)
          = List.filterMap (fun o => o) (prevMark rest xs) from rfl]
      rw [ih, List.filter_cons, if_neg (by simpa using hc)]

theorem prevMark_countP (prev xs : List Item) :
    (prevMark prev xs).countP (fun o => o.isSome)
      = (prev.filter (fun p => decide (p.id ∈ xs.map (fun it => it.id)))).length := by
  induction prev with
  | nil => rfl
  | cons p rest ih =>
    have hcons : prevMark (p :: rest) xs
        = (if p.id ∈ xs.map (fun it => it.id) then some p else none) :: prevMark rest xs := rfl
    rw [hcons, List.countP_cons]
    by_cases hc : p.id ∈ xs.map (fun it => it.id)
    · have hdec : decide (p.id ∈ xs.map (fun it => it.id)) = true := by simpa using hc
      rw [if_pos hc, ih, List.filter_cons, if_pos hdec, List.length_cons]
      simp
    · have hdec : ¬decide (p.id ∈ xs.map (fun it => it.id)) = true := by simpa using hc
      rw [if_neg hc, ih, List.filter_cons, if_neg hdec]
      simp

/-- Invariant of the update pipeline after the selector built from `prev` has
consumed the stream `xs`: the configuration fields are constant, the slots are
exactly the marks of the ids seen so far, and the embedded fresh selector holds
the candidate items in arrival order, truncated at the remaining room. -/
def UInv (mF M N : Nat) (prev xs : List Item) (sel : PrevSel) : Prop :=
  sel.max_items = M
  ∧ sel.order_map = omList prev 0
  ∧ sel.newest_time = N
  ∧ sel.fresh_selector.min_fresh_time = mF
  ∧ sel.prev_items = prevMark prev xs
  ∧ sel.fresh_selector.items = (xs.filter (candB prev N)).take (M - prev.length)

theorem prevTake_inv {mF M N : Nat} {prev xs : List Item} {sel : PrevSel} {x : Item}
    (hids : (prev.map (fun it => it.id)).Nodup)
    (heqx : ∀ p ∈ prev, x.id = p.id → x = p)
    (hfresh : mF ≤ N)
    (h : UInv mF M N prev xs sel) :
    UInv mF M N prev (xs ++ [x]) (sel.take x).1 := by
  obtain ⟨h1, h2, h3, h4, h5, h6⟩ := h
  cases hfp : findPair sel.order_map x.id with
  | some pr =>
    obtain ⟨j, hj, hpr, hid⟩ := omList_find_some prev 0 x.id pr (by rw [← h2]; exact hfp)
    have hxmem : x.id ∈ prev.map (fun it => it.id) :=
      List.mem_map.mpr ⟨prev.get ⟨j, hj⟩, List.get_mem prev j hj, hid⟩
    have hx : prev.get ⟨j, hj⟩ = x :=
      (heqx (prev.get ⟨j, hj⟩) (List.get_mem prev j hj) hid.symm).symm
    have hcand : candB prev N x = false := by simp [candB, hxmem]
    have hpr2 : pr.2 = j := by
      rw [hpr]
      show 0 + j = j
      omega
    have htake : (sel.take x).1
        = PrevSel.mk sel.max_items (sel.prev_items.set pr.2 (some x)) sel.order_map
            sel.newest_time sel.fresh_selector := by
      simp only [PrevSel.take, hfp]
    rw [htake]
    refine ⟨h1, h2, h3, h4, ?_, ?_⟩
    · show sel.prev_items.set pr.2 (some x) = prevMark prev (xs ++ [x])
      rw [h5, hpr2, prevMark_set xs hj hids hid hx]
    · show sel.fresh_selector.items
        = ((xs ++ [x]).filter (candB prev N)).take (M - prev.length)
      rw [h6, List.filter_append]
      simp [List.filter_cons, hcand]
  | none =>
    have hnotmem : x.id ∉ prev.map (fun it => it.id) := by
      rw [h2] at hfp
      exact (omList_find_none 0).mp hfp
    by_cases hnew : N < x.time
    · have hcand : candB prev N x = true := by simp [candB, hnotmem, hnew]
      by_cases hroom : prev.length + sel.fresh_selector.items.length < M
      · have hcond : sel.newest_time < x.time
            ∧ sel.prev_items.length + sel.fresh_selector.items.length < sel.max_items := by
          constructor
          · rw [h3]
            exact hnew
          · rw [h1, h5, prevMark_length]
            exact hroom
        have hmf : sel.fresh_selector.min_fresh_time ≤ x.time := by
          rw [h4]
          omega
        have hft : sel.fresh_selector.take x
            = (FreshSel.mk sel.fresh_selector.min_fresh_time
                (sel.fresh_selector.items ++ [x]), none) := by
          simp only [FreshSel.take]
          rw [if_pos hmf]
        have htake : (sel.take x).1
            = PrevSel.mk sel.max_items sel.prev_items sel.order_map sel.newest_time
                (FreshSel.mk sel.fresh_selector.min_fresh_time
                  (sel.fresh_selector.items ++ [x])) := by
          simp only [PrevSel.take, hfp]
          rw [if_pos hcond, hft]
        rw [htake]
        refine ⟨h1, h2, h3, h4, ?_, ?_⟩
        · show sel.prev_items = prevMark prev (xs ++ [x])
          rw [h5, prevMark_skip xs hnotmem]
        · show sel.fresh_selector.items ++ [x]
            = ((xs ++ [x]).filter (candB prev N)).take (M - prev.length)
          have hlen : (xs.filter (candB prev N)).length < M - prev.length := by
            have hlt : prev.length
                + ((xs.filter (candB prev N)).take (M - prev.length)).length < M := by
              rw [← h6]
              exact hroom
            rw [List.length_take] at hlt
            omega
          rw [h6, List.filter_append]
          rw [show List.filter (candB prev N) [x] = [x] from by simp [List.filter_cons, hcand]]
          rw [List.take_of_length_le (Nat.le_of_lt hlen)]
          rw [List.take_of_length_le (by simp [List.length_append]; omega)]
      · have hcondn : ¬(sel.newest_time < x.time
            ∧ sel.prev_items.length + sel.fresh_selector.items.length < sel.max_items) := by
          intro hc
          apply hroom
          have hc2 := hc.2
          rw [h1] at hc2
          rw [h5, prevMark_length] at hc2
          exact hc2
        have htake : (sel.take x).1 = sel := by
          simp only [PrevSel.take, hfp]
          rw [if_neg hcondn]
        rw [htake]
        refine ⟨h1, h2, h3, h4, ?_, ?_⟩
        · rw [h5, prevMark_skip xs hnotmem]
        · have hge : M - prev.length ≤ (xs.filter (candB prev N)).length := by
            have hlt : ¬ prev.length
                + ((xs.filter (candB prev N)).take (M - prev.length)).length < M := by
              rw [← h6]
              exact hroom
            rw [List.length_take] at hlt
            omega
          rw [h6, List.filter_append]
          rw [show List.filter (candB prev N) [x] = [x] from by simp [List.filter_cons, hcand]]
          rw [List.take_append_of_le_length hge]
    · have hcand : candB prev N x = false := by simp [candB, hnew]
      have hcondn : ¬(sel.newest_time < x.time
          ∧ sel.prev_items.length + sel.fresh_selector.items.length < sel.max_items) :=
        fun hc => hnew (by rw [← h3]; exact hc.1)
      have htake : (sel.take x).1 = sel := by
        simp only [PrevSel.take, hfp]
        rw [if_neg hcondn]
      rw [htake]
      refine ⟨h1, h2, h3, h4, ?_, ?_⟩
      · rw [h5, prevMark_skip xs hnotmem]
      · rw [h6, List.filter_append]
        simp [List.filter_cons, hcand]

theorem countP_set_some_ge (slots : List (Option Item)) (j : Nat) (x : Item) :
    slots.countP (fun o => o.isSome)
      ≤ (slots.set j (some x)).countP (fun o => o.isSome) := by
  induction slots generalizing j with
  | nil => simp
  | cons o rest ih =>
    cases j with
    | zero =>
      simp only [List.set_cons_zero, List.countP_cons]
      cases o <;> simp
    | succ n =>
      simp only [List.set_cons_succ, List.countP_cons]
      have := ih n
      omega

theorem prevTake_locked_mono (sel : PrevSel) (x : Item) :
    sel.locked ≤ (sel.take x).1.locked := by
  cases hfp : findPair sel.order_map x.id with
  | some pr =>
    have htake : (sel.take x).1
        = PrevSel.mk sel.max_items (sel.prev_items.set pr.2 (some x)) sel.order_map
            sel.newest_time sel.fresh_selector := by
      simp only [PrevSel.take, hfp]
    rw [htake]
    show sel.locked ≤ (sel.prev_items.set pr.2 (some x)).countP (fun o => o.isSome)
        + sel.fresh_selector.items.length
    have hc := countP_set_some_ge sel.prev_items pr.2 x
    rw [PrevSel.locked]
    omega
  | none =>
    by_cases hcond : sel.newest_time < x.time
        ∧ sel.prev_items.length + sel.fresh_selector.items.length < sel.max_items
    · by_cases hmf : sel.fresh_selector.min_fresh_time ≤ x.time
      · have hft : sel.fresh_selector.take x
            = (FreshSel.mk sel.fresh_selector.min_fresh_time
                (sel.fresh_selector.items ++ [x]), none) := by
          simp only [FreshSel.take]
          rw [if_pos hmf]
        have htake : (sel.take x).1
            = PrevSel.mk sel.max_items sel.prev_items sel.order_map sel.newest_time
                (FreshSel.mk sel.fresh_selector.min_fresh_time
                  (sel.fresh_selector.items ++ [x])) := by
          simp only [PrevSel.take, hfp]
          rw [if_pos hcond, hft]
        rw [htake]
        show sel.locked ≤ sel.prev_items.countP (fun o => o.isSome)
            + (sel.fresh_selector.items ++ [x]).length
        rw [PrevSel.locked, List.length_append]
        simp only [List.length_cons, List.length_nil]
        omega
      · have hft : sel.fresh_selector.take x = (sel.fresh_selector, some x) := by
          simp only [FreshSel.take]
          rw [if_neg hmf]
        have htake : (sel.take x).1 = sel := by
          simp only [PrevSel.take, hfp]
          rw [if_pos hcond, hft]
        rw [htake]
    · have htake : (sel.take x).1 = sel := by
        simp only [PrevSel.take, hfp]
        rw [if_neg hcond]
      rw [htake]

theorem updFold_locked_mono : ∀ (ys : List Item) (sel : PrevSel),
    sel.locked ≤ (ys.foldl (fun s x => (PrevSel.take s x).1) sel).locked := by
  intro ys
  induction ys with
  | nil => intro sel; exact Nat.le_refl _
  | cons y rest ih =>
    intro sel
    rw [List.foldl_cons]
    exact Nat.le_trans (prevTake_locked_mono sel y) (ih _)

theorem updRun_eq_foldl (maxSize : Nat) : ∀ (ys : List Item) (sel : PrevSel),
    (ys.foldl (fun s x => (PrevSel.take s x).1) sel).locked < maxSize →
    updRun maxSize sel ys = ys.foldl (fun s x => (PrevSel.take s x).1) sel := by
  intro ys
  induction ys with
  | nil => intro sel _; rfl
  | cons y rest ih =>
    intro sel hlt
    rw [List.foldl_cons] at hlt ⊢
    have hsel : sel.locked < maxSize :=
      Nat.lt_of_le_of_lt
        (Nat.le_trans (prevTake_locked_mono sel y) (updFold_locked_mono rest _)) hlt
    simp only [updRun]
    rw [if_neg (by omega)]
    exact ih _ hlt

theorem updFold_inv {mF M N : Nat} {prev : List Item}
    (hids : (prev.map (fun it => it.id)).Nodup) (hfresh : mF ≤ N) :
    ∀ (ys xs : List Item) (sel : PrevSel),
    (∀ a ∈ ys, ∀ p ∈ prev, a.id = p.id → a = p) →
    UInv mF M N prev xs sel →
    UInv mF M N prev (xs ++ ys) (ys.foldl (fun s x => (PrevSel.take s x).1) sel) := by
  intro ys
  induction ys with
  | nil => intro xs sel _ h; simpa using h
  | cons y rest ih =>
    intro xs sel heq h
    rw [List.foldl_cons]
    have h2 := prevTake_inv hids (heq y (List.mem_cons_self y rest)) hfresh h
    have h3 := ih (xs ++ [y]) _ (fun a ha => heq a (List.mem_cons_of_mem y ha)) h2
    have hxy : (xs ++ [y]) ++ rest = xs ++ (y :: rest) := by simp
    rw [hxy] at h3
    exact h3

theorem UInv_init (mF M : Nat) (prev : List Item)
    (hids : (prev.map (fun it => it.id)).Nodup) :
    UInv mF M (newestOf prev) prev [] (PrevSel.new mF M prev) := by
  have hsnd : (prevInitLoop prev 0 0 []).2 = omList prev 0 := by
    rw [prevInitLoop_snd prev 0 0 [] hids (fun a _ => rfl)]
    rfl
  refine ⟨rfl, ?_, ?_, rfl, ?_, ?_⟩
  · show (prevInitLoop prev 0 0 []).2 = omList prev 0
    exact hsnd
  · show (prevInitLoop prev 0 0 []).1 = newestOf prev
    rw [prevInitLoop_fst]
    rfl
  · show List.replicate (prevInitLoop prev 0 0 []).2.length none = prevMark prev []
    rw [hsnd, omList_length, prevMark_nil]
  · show ([] : List Item)
      = (([] : List Item).filter (candB prev (newestOf prev))).take (M - prev.length)
    simp

theorem drain_of_inv {mF M N : Nat} {prev xs : List Item} {sel : PrevSel}
    (h : UInv mF M N prev xs sel) :
    sel.drain = ((xs.filter (candB prev N)).take (M - prev.length)).insertionSort timeDesc
      ++ prev.filter (fun p => decide (p.id ∈ xs.map (fun it => it.id))) := by
  obtain ⟨h1, h2, h3, h4, h5, h6⟩ := h
  simp only [PrevSel.drain, FreshSel.drain]
  rw [h6, h5, prevMark_filterMap]

theorem locked_of_inv {mF M N : Nat} {prev xs : List Item} {sel : PrevSel}
    (h : UInv mF M N prev xs sel) :
    sel.locked = ((xs.filter (candB prev N)).take (M - prev.length)).length
      + (prev.filter (fun p => decide (p.id ∈ xs.map (fun it => it.id)))).length := by
  obtain ⟨h1, h2, h3, h4, h5, h6⟩ := h
  rw [PrevSel.locked, h6, h5, prevMark_countP]
  omega

/-- Newly arrived fresh items selected by the update pipeline: unknown id,
strictly newer than every previous item, truncated at the room left by the
previous playlist. -/
def newsOf (b : PlaylistBuilder) (album prev : List Item) : List Item :=
  (album.filter (candB prev (newestOf prev))).take (b.max_size - prev.length)

/-- Previous items whose id the album still yields, in former order. -/
def keptOf (album prev : List Item) : List Item :=
  prev.filter (fun p => decide (p.id ∈ album.map (fun it => it.id)))

/-- Previous item of the C3 instances. -/
def pIC3 : Item := ⟨0, 10, "p", 0⟩

/-- Newly arrived item of the C3 instances. -/
def nIC3 : Item := ⟨1, 20, "n", 0⟩

/-- C3 counterexample: with previous playlist `[p]` and album `[p, n]` where
`n` is newly arrived, `updated` returns `Some [n, p]`: the fresh item is placed
before the kept previous item, not appended after it as the claim states. -/
theorem C3_updated_cex :
    (PlaylistBuilder.mk 1 5 100).updated 100 [pIC3, nIC3] [pIC3] = some [nIC3, pIC3]
    ∧ (PlaylistBuilder.mk 1 5 100).updated 100 [pIC3, nIC3] [pIC3]
        ≠ some ([pIC3] ++ [nIC3]) := by
  decide

/-- C3 (amended): provided the previous playlist has distinct ids, album items
sharing an id with a previous item are equal to it, the previous playlist is no
older than the fresh cutoff, and the kept and new items together stay below
`max_size`, `updated(album, prev)` computes the newly-arrived fresh items
(created strictly after every previous item), ordered newest-first among
themselves and truncated at `max_size − prev.len`, followed by the previous
items still yielded by the album at their former positions with gaps
collapsed; it returns `None` exactly when that list equals `prev` and
`Some` of it otherwise. -/
theorem C3_updated_spec (b : PlaylistBuilder) (now : Nat) (album prev : List Item)
    (hids : (prev.map (fun it => it.id)).Nodup)
    (heq : ∀ a ∈ album, ∀ p ∈ prev, a.id = p.id → a = p)
    (hfresh : now - b.fresh_retention ≤ newestOf prev)
    (hroom : (newsOf b album prev).length + (keptOf album prev).length < b.max_size) :
    b.updated now album prev
      = (if (newsOf b album prev).insertionSort timeDesc ++ keptOf album prev = prev
         then none
         else some ((newsOf b album prev).insertionSort timeDesc ++ keptOf album prev))
    ∧ ((newsOf b album prev).insertionSort timeDesc).Pairwise timeDesc := by
  have hinv0 := UInv_init (now - b.fresh_retention) b.max_size prev hids
  have hinv := updFold_inv hids hfresh album []
    (PrevSel.new (now - b.fresh_retention) b.max_size prev) heq hinv0
  rw [List.nil_append] at hinv
  have hdr := drain_of_inv hinv
  have hlock := locked_of_inv hinv
  have hlt : (album.foldl (fun s x => (PrevSel.take s x).1)
      (PrevSel.new (now - b.fresh_retention) b.max_size prev)).locked < b.max_size := by
    rw [hlock]
    simp only [newsOf, keptOf] at hroom
    omega
  have hrun := updRun_eq_foldl b.max_size album
    (PrevSel.new (now - b.fresh_retention) b.max_size prev) hlt
  have hdlen : (album.foldl (fun s x => (PrevSel.take s x).1)
      (PrevSel.new (now - b.fresh_retention) b.max_size prev)).drain.length
      = (album.foldl (fun s x => (PrevSel.take s x).1)
          (PrevSel.new (now - b.fresh_retention) b.max_size prev)).locked := by
    rw [hdr, hlock, List.length_append, (List.perm_insertionSort timeDesc _).length_eq]
  have hres : selRun [((updRun b.max_size (PrevSel.new (now - b.fresh_retention)
        b.max_size prev) album).locked,
      (updRun b.max_size (PrevSel.new (now - b.fresh_retention) b.max_size prev)
        album).drain)] [] b.min_size b.max_size
      = (newsOf b album prev).insertionSort timeDesc ++ keptOf album prev := by
    rw [hrun, selRun_one]
    rw [selOne_locked_fst _ _ [] b.min_size b.max_size (Nat.le_of_eq hdlen)]
    rw [List.nil_append]
    have htk : (album.foldl (fun s x => (PrevSel.take s x).1)
        (PrevSel.new (now - b.fresh_retention) b.max_size prev)).drain.length
        ≤ b.max_size - ([] : List Item).length := by
      simp only [List.length_nil, Nat.sub_zero]
      omega
    rw [List.take_of_length_le htk, hdr]
    simp only [newsOf, keptOf]
  constructor
  · have hupd : b.updated now album prev
        = (if selRun [((updRun b.max_size (PrevSel.new (now - b.fresh_retention)
              b.max_size prev) album).locked,
            (updRun b.max_size (PrevSel.new (now - b.fresh_retention) b.max_size prev)
              album).drain)] [] b.min_size b.max_size = prev
           then none
           else some (selRun [((updRun b.max_size (PrevSel.new (now - b.fresh_retention)
              b.max_size prev) album).locked,
            (updRun b.max_size (PrevSel.new (now - b.fresh_retention) b.max_size prev)
              album).drain)] [] b.min_size b.max_size)) := rfl
    rw [hupd, hres]
  · exact List.sorted_insertionSort timeDesc _

/-- C3 witness instance: the amended characterization applied to the concrete
builder of the counterexample, with every hypothesis discharged by
computation. -/
theorem C3_updated_spec_witness :
    (([pIC3].map (fun it => it.id)).Nodup
      ∧ (∀ a ∈ [pIC3, nIC3], ∀ p ∈ [pIC3], a.id = p.id → a = p)
      ∧ 100 - (PlaylistBuilder.mk 1 5 100).fresh_retention ≤ newestOf [pIC3]
      ∧ (newsOf (PlaylistBuilder.mk 1 5 100) [pIC3, nIC3] [pIC3]).length
          + (keptOf [pIC3, nIC3] [pIC3]).length < (PlaylistBuilder.mk 1 5 100).max_size)
    ∧ ((PlaylistBuilder.mk 1 5 100).updated 100 [pIC3, nIC3] [pIC3]
        = (if (newsOf (PlaylistBuilder.mk 1 5 100) [pIC3, nIC3] [pIC3]).insertionSort
              timeDesc ++ keptOf [pIC3, nIC3] [pIC3] = [pIC3]
           then none
           else some ((newsOf (PlaylistBuilder.mk 1 5 100) [pIC3, nIC3]
              [pIC3]).insertionSort timeDesc ++ keptOf [pIC3, nIC3] [pIC3]))
      ∧ ((newsOf (PlaylistBuilder.mk 1 5 100) [pIC3, nIC3] [pIC3]).insertionSort
          timeDesc).Pairwise timeDesc) :=
  ⟨⟨by decide, by decide, by decide, by decide⟩,
    C3_updated_spec (PlaylistBuilder.mk 1 5 100) 100 [pIC3, nIC3] [pIC3]
      (by decide) (by decide) (by decide) (by decide)⟩

/-- State of the player visible to the slideshow: the paused flag and the
playlist updates received so far (arguments of the `Player::update_playlist`
calls, in order). -/
structure PlayerM where
  pausing : Bool
  updates : List (List String)
deriving DecidableEq, Repr

/-- State of the `Slideshow` orchestrator over an error-free album: the album
items, the playlist builder, the storage cache together with the directory
contents (file name, byte size), the player, the installed playlist, and the
random stream and current time consumed by playlist builds. -/
structure Slideshow where
  album : List Item
  builder : PlaylistBuilder
  storage : Storage
  disk : List (String × Nat)
  player : PlayerM
  playlist : Option (List Item)
  rng : List Nat
  now : Nat
deriving DecidableEq, Repr

/-- Model of `Slideshow::new`: no playlist is installed yet. -/
def Slideshow.new (album : List Item) (b : PlaylistBuilder) (stor : Storage)
    (disk : List (String × Nat)) (player : PlayerM) (rng : List Nat) (now : Nat) :
    Slideshow :=
  Slideshow.mk album b stor disk player none rng now

/-- One iteration of the `prepare_items` loop: the size comes from the file's
metadata when it already exists and from the download otherwise; the cache is
acquired with the playlist paths reserved, evicted files disappear from the
directory, a downloaded file is renamed into place, and the path is collected
on success. -/
def prepStep (reserved : List String) (st : Storage × List (String × Nat) × List String)
    (it : Item) : Storage × List (String × Nat) × List String :=
  match st with
  | (stor, disk, paths) =>
    match findPair disk it.path with
    | some pr =>
      match stor.acquire it.path pr.2 reserved with
      | (ok, stor2, del) =>
        if ok then (stor2, disk.filter (fun p => decide (p.1 ∉ del)), paths ++ [it.path])
        else (stor2, disk.filter (fun p => decide (p.1 ∉ del)), paths)
    | none =>
      match stor.acquire it.path it.size reserved with
      | (ok, stor2, del) =>
        if ok then
          (stor2, disk.filter (fun p => decide (p.1 ∉ del)) ++ [(it.path, it.size)],
            paths ++ [it.path])
        else (stor2, disk.filter (fun p => decide (p.1 ∉ del)), paths)

/-- Model of `Slideshow::prepare_items` over an error-free album: every
playlist path is reserved, and the prepared paths are returned with the
updated cache and directory. -/
def prepareItems (stor : Storage) (disk : List (String × Nat)) (pl : List Item) :
    Storage × List (String × Nat) × List String :=
  pl.foldl (prepStep (pl.map (fun it => it.path))) (stor, disk, [])

/-- Release of every old playlist item, errors logged and ignored. -/
def releaseAll (stor : Storage) : List Item → Storage
  | [] => stor
  | it :: rest =>
    match stor.release it.path with
    | .ok s2 => releaseAll s2 rest
    | .error _ => releaseAll stor rest

/-- Model of `Slideshow::replace_playlist`: prepare the items (keeping their
acquisitions); return early when no path was prepared or when the player is
pausing at the re-check; otherwise send the paths to the player, install the
playlist and release the items of the previous one. -/
def replacePlaylist (s : Slideshow) (pl : List Item) : Slideshow :=
  match prepareItems s.storage s.disk pl with
  | (stor2, disk2, paths) =>
    if paths = [] then
      Slideshow.mk s.album s.builder stor2 disk2 s.player s.playlist s.rng s.now
    else if s.player.pausing then
      Slideshow.mk s.album s.builder stor2 disk2 s.player s.playlist s.rng s.now
    else
      Slideshow.mk s.album s.builder
        (match s.playlist with
          | some old => releaseAll stor2 old
          | none => stor2)
        disk2 (PlayerM.mk s.player.pausing (s.player.updates ++ [paths]))
        (some pl) s.rng s.now

/-- Model of `Slideshow::refresh_playlist`: skip when pausing, otherwise build
a fresh playlist and replace the current one. -/
def refreshPlaylist (s : Slideshow) : Slideshow :=
  if s.player.pausing then s
  else replacePlaylist s (s.builder.build s.now s.album s.rng)

/-- Result of `Slideshow::update_playlist`: a normal return, or the panic of
the `expect("playlist")` call. -/
inductive Outcome where
  | ok (s : Slideshow)
  | panicked
deriving DecidableEq, Repr

/-- Model of `Slideshow::update_playlist`: skip when pausing; otherwise unwrap
the current playlist with `expect` (panicking when it is `None`), compute the
updated playlist and replace the current one when it changed. -/
def updatePlaylist (s : Slideshow) : Outcome :=
  if s.player.pausing then .ok s
  else
    match s.playlist with
    | none => .panicked
    | some pl =>
      match s.builder.updated s.now s.album pl with
      | some npl => .ok (replacePlaylist s npl)
      | none => .ok s

/-- Slideshow state of the C2 counterexample: an empty paused slideshow over an
empty cache. -/
def sC2 : Slideshow :=
  Slideshow.new [] (PlaylistBuilder.mk 1 5 100) (openScan [] 10) [] (PlayerM.mk true []) [0] 100

/-- C2 counterexample: replacing the playlist of a paused slideshow with one
new item leaves the player and the installed playlist alone but changes the
cache: the item prepared before the pause re-check stays acquired. -/
theorem C2_pause_cache_cex :
    (replacePlaylist sC2 [⟨0, 1, "a", 3⟩]).player = sC2.player
    ∧ (replacePlaylist sC2 [⟨0, 1, "a", 3⟩]).playlist = sC2.playlist
    ∧ (replacePlaylist sC2 [⟨0, 1, "a", 3⟩]).storage ≠ sC2.storage := by
  decide

/-- C2 (amended): when the player reports pausing at the re-check performed
after item preparation inside `replace_playlist`, the player is not updated
and the current playlist is unchanged, while the cache and the directory are
exactly the state left by `prepare_items`: the acquisitions made while
preparing the items are retained, not rolled back. -/
theorem C2_pause_recheck (s : Slideshow) (pl : List Item)
    (hp : s.player.pausing = true) :
    (replacePlaylist s pl).player = s.player
    ∧ (replacePlaylist s pl).playlist = s.playlist
    ∧ (replacePlaylist s pl).storage = (prepareItems s.storage s.disk pl).1
    ∧ (replacePlaylist s pl).disk = (prepareItems s.storage s.disk pl).2.1 := by
  cases hprep : prepareItems s.storage s.disk pl with
  | mk stor2 rest =>
    cases rest with
    | mk disk2 paths =>
      have hrep : replacePlaylist s pl
          = Slideshow.mk s.album s.builder stor2 disk2 s.player s.playlist s.rng s.now := by
        simp only [replacePlaylist, hprep]
        by_cases hpaths : paths = []
        · rw [if_pos hpaths]
        · rw [if_neg hpaths, if_pos hp]
      rw [hrep]
      exact ⟨rfl, rfl, rfl, rfl⟩

/-- C2 witness instance: the paused counterexample state, for which the
re-check keeps the prepared acquisition in the cache. -/
theorem C2_pause_recheck_witness :
    sC2.player.pausing = true
    ∧ ((replacePlaylist sC2 [⟨0, 1, "a", 3⟩]).player = sC2.player
      ∧ (replacePlaylist sC2 [⟨0, 1, "a", 3⟩]).playlist = sC2.playlist
      ∧ (replacePlaylist sC2 [⟨0, 1, "a", 3⟩]).storage
          = (prepareItems sC2.storage sC2.disk [⟨0, 1, "a", 3⟩]).1
      ∧ (replacePlaylist sC2 [⟨0, 1, "a", 3⟩]).disk
          = (prepareItems sC2.storage sC2.disk [⟨0, 1, "a", 3⟩]).2.1) :=
  ⟨by decide, C2_pause_recheck sC2 [⟨0, 1, "a", 3⟩] (by decide)⟩

/-- C10: `update_playlist` on a non-pausing slideshow whose current playlist
was never installed panics through the `expect("playlist")` call. -/
theorem C10_update_panics (s : Slideshow)
    (hp : s.player.pausing = false) (hpl : s.playlist = none) :
    updatePlaylist s = Outcome.panicked := by
  simp only [updatePlaylist]
  rw [if_neg (by rw [hp]; simp), hpl]

/-- Slideshow state of the C10 witness: freshly constructed, not pausing, with
an empty album. -/
def sC10 : Slideshow :=
  Slideshow.new [] (PlaylistBuilder.mk 2 5 3600) (openScan [] 100) [] (PlayerM.mk false [])
    [0] 1000

/-- C10 witness instance: the panic state is reachable: a refresh of a freshly
constructed slideshow over an empty album prepares no path, so no playlist is
installed, and the following `update_playlist` call panics. -/
theorem C10_update_panics_witness :
    ((refreshPlaylist sC10).player.pausing = false
      ∧ (refreshPlaylist sC10).playlist = none)
    ∧ updatePlaylist (refreshPlaylist sC10) = Outcome.panicked :=
  ⟨⟨by decide, by decide⟩, C10_update_panics (refreshPlaylist sC10) (by decide) (by decide)⟩

end Phoseum
